import Mathlib

/-!
Verification of the type-resolution and overload-disambiguation core of the
repository: the overload tracker (`overload_tracker.rs`), the typedef/namespace
type converter (`type_converter.rs`) and the type metadata registry
(`type_database.rs`), shallowly embedded in Lean.

Modelling conventions:
* Rust `String` identifiers handled character by character are embedded as
  `List Char`; identifiers that are only compared for equality are embedded as
  `String`.
* `char::is_numeric` is modelled as `Char.isDigit`: native identifiers are
  ASCII, and on ASCII the two predicates agree.  Counters are carried as `Nat`,
  and `str::parse::<usize>` is modelled with its overflow failure on a 64-bit
  target: it succeeds exactly on nonempty digit runs whose decimal value is
  below `2 ^ 64`.  (Overflow of the expected-next counter itself would need
  `2 ^ 64` tracker calls in one run and is not modelled.)
* A Rust `HashMap` accessed only through `entry(..).or_insert(d)` is
  observationally a total function with default `d`; the `expected_next_by_name`
  map (default 0) is therefore a total function `List Char → Nat`, while the
  offset registries (whose inserted default is data-dependent) keep an `Option`
  codomain.  The converter's `typedefs` map is a finite association list.
* A Rust panic is a fatal, non-returning outcome; it is embedded as a `none` /
  `.fatal` result, distinct from the recoverable `Result::Err`.
-/

/-! ## Overload tracker (src/engine/src/conversion/overload_tracker.rs) -/

/-- Output of overload disambiguation (`struct MethodOverload`):
`cpp_method_name` is the underlying native symbol to invoke, and
`rust_method_name` is the bridge name to expose. -/
structure MethodOverload where
  cpp_method_name : List Char
  rust_method_name : List Char
deriving DecidableEq, Repr

/-- Rust `suffix.parse::<usize>()` on a 64-bit target: succeeds exactly on
nonempty all-digit strings whose decimal value fits in `usize` (is below
`2 ^ 64`), returning that value; a longer run overflows and is an `Err`. -/
def parse_usize (s : List Char) : Option Nat :=
  if s ≠ [] ∧ s.all Char.isDigit ∧
      s.foldl (fun a c => 10 * a + (c.toNat - 48)) 0 < 2 ^ 64 then
    some (s.foldl (fun a c => 10 * a + (c.toNat - 48)) 0)
  else
    none

/-- Loop body of `split_name`: scan the reversed identifier; `pos` counts the
digits already skipped at the end of `orig`.  The first non-digit ends the
scan: everything after it is the suffix, parsed as the counter (0 when empty).
Running out of characters models the `panic!("Identifier was entirely
numeric")`; an unparseable suffix models the `unwrap()` panic.  Both fatal
outcomes are `none`. -/
def split_name_loop (orig : List Char) : List Char → Nat → Option (List Char × Nat)
  | [], _ => none
  | ch :: rest, pos =>
    if Char.isDigit ch then
      split_name_loop orig rest (pos + 1)
    else
      let split := orig.length - pos
      let stem := orig.take split
      let suffix := orig.drop split
      match (if suffix = [] then some 0 else parse_usize suffix : Option Nat) with
      | none => none
      | some counter => some (stem, counter)

/-- Rust `fn split_name(found_name: &str) -> (&str, usize)`: split a raw identifier
into the part before the maximal trailing digit run and that run's decimal
value.  `none` models the fatal all-numeric panic. -/
def split_name (found_name : List Char) : Option (List Char × Nat) :=
  split_name_loop found_name found_name.reverse 0

/-- State of `struct OverloadTracker` (see the `HashMap` modelling note in the
file header). -/
structure OverloadTracker where
  offset_by_name : List Char → Option Nat
  offset_by_type_and_name : List Char → List Char → Option Nat
  expected_next_by_name : List Char → Nat

/-- Source `OverloadTracker::new` / `Default::default()`: all maps empty. -/
def OverloadTracker.new : OverloadTracker :=
  ⟨fun _ => none, fun _ _ => none, fun _ => 0⟩

/-- Source `OverloadTracker::next_offset`.  Returns the `MethodOverload` together with
the updated tracker state; `none` models the `split_name` panic. -/
def next_offset (ot : OverloadTracker) (type_name : Option (List Char))
    (found_name : List Char) : Option (MethodOverload × OverloadTracker) :=
  match split_name found_name with
  | none => none
  | some (fn_name, counter) =>
    let expected_next_suffix := ot.expected_next_by_name fn_name
    if counter ≠ expected_next_suffix then
      -- not an overload sequence member: return the name unchanged, no state change
      some (⟨found_name, found_name⟩, ot)
    else
      let expected' : List Char → Nat :=
        fun n => if n = fn_name then expected_next_suffix + 1 else ot.expected_next_by_name n
      match type_name with
      | some tn =>
        let registry := ot.offset_by_type_and_name tn
        let offset := (registry fn_name).getD counter
        let registry' : List Char → Option Nat :=
          fun n => if n = fn_name then some offset else registry n
        let effective_count := counter - offset
        some (⟨fn_name,
               if effective_count = 0 then fn_name
               else fn_name ++ Nat.toDigits 10 effective_count⟩,
              { ot with
                  expected_next_by_name := expected',
                  offset_by_type_and_name :=
                    fun t => if t = tn then registry' else ot.offset_by_type_and_name t })
      | none =>
        let registry := ot.offset_by_name
        let offset := (registry fn_name).getD counter
        let registry' : List Char → Option Nat :=
          fun n => if n = fn_name then some offset else registry n
        let effective_count := counter - offset
        some (⟨fn_name,
               if effective_count = 0 then fn_name
               else fn_name ++ Nat.toDigits 10 effective_count⟩,
              { ot with
                  expected_next_by_name := expected',
                  offset_by_name := registry' })

/-- Source `OverloadTracker::get_function_real_name`. -/
def get_function_real_name (ot : OverloadTracker) (found_name : List Char) :
    Option (MethodOverload × OverloadTracker) :=
  next_offset ot none found_name

/-- Source `OverloadTracker::get_method_real_name`. -/
def get_method_real_name (ot : OverloadTracker) (type_name found_name : List Char) :
    Option (MethodOverload × OverloadTracker) :=
  next_offset ot (some type_name) found_name

/-- Run a sequence of lookups (`none` owner = free function, `some ty` =
method on `ty`), threading the tracker state, and collect the results. -/
def run_lookups : OverloadTracker → List (Option (List Char) × List Char) →
    Option (List MethodOverload)
  | _, [] => some []
  | ot, (tn, name) :: rest =>
    match next_offset ot tn name with
    | none => none
    | some (mo, ot') => (run_lookups ot' rest).map (mo :: ·)

/-! ### Spec-shaped splitting functions

These follow the spec's words, for comparison with `split_name`:
"the maximal trailing run of decimal digits is the suffix; the remainder is
the prefix. If the suffix is empty, the counter is 0." -/

/-- The maximal trailing run of decimal digits of an identifier (the spec's
*suffix*). -/
def spec_trailing_digits (s : List Char) : List Char :=
  (s.reverse.takeWhile Char.isDigit).reverse

/-- Everything before the maximal trailing run of decimal digits (the spec's
*prefix*). -/
def spec_stem (s : List Char) : List Char :=
  (s.reverse.dropWhile Char.isDigit).reverse

/-- A digit run read as a decimal number. -/
def digits_value (l : List Char) : Nat :=
  l.foldl (fun a c => 10 * a + (c.toNat - 48)) 0

/-- The spec's *counter*: the trailing digit run read as a decimal number,
0 when the run is empty. -/
def spec_counter (s : List Char) : Nat :=
  if spec_trailing_digits s = [] then 0 else digits_value (spec_trailing_digits s)

/-! ## Type converter (src/engine/src/conversion/type_converter.rs)

The `syn` type expression tree is embedded by the fragment the converter
inspects: path types, reference types, raw pointer types, and an opaque
constructor for every other shape (which `convert_type` passes through
unmodified and the renderer treats as fatal).  Lifetimes are irrelevant to the
code under verification and are omitted. -/

mutual
/-- Shallow embedding of `syn::Type` (the fragment the code inspects). -/
inductive RsType where
  | path (segments : List PathSegment)
  | reference (mutability : Bool) (elem : RsType)
  | ptr (mutability : Bool) (elem : RsType)
  | otherShape (tag : Nat)

/-- Shallow embedding of `syn::PathSegment`: an identifier plus arguments. -/
inductive PathSegment where
  | mk (ident : String) (arguments : PathArguments)

/-- Shallow embedding of `syn::PathArguments`. -/
inductive PathArguments where
  | noArgs
  | angleBracketed (args : List GenericArgument)
  | parenthesized

/-- Shallow embedding of `syn::GenericArgument`: a type argument, or an
opaque non-type argument (lifetime, const, binding, ...). -/
inductive GenericArgument where
  | type (t : RsType)
  | otherArg (tag : Nat)
end

/-- The identifier of a path segment. -/
def PathSegment.ident : PathSegment → String
  | .mk i _ => i

/-- The arguments of a path segment. -/
def PathSegment.arguments : PathSegment → PathArguments
  | .mk _ a => a

/-- Source `syn::PathArguments::is_empty`. -/
def PathArguments.is_empty : PathArguments → Bool
  | .noArgs => true
  | .angleBracketed args => args.isEmpty
  | .parenthesized => false

/-- Modelled from the spec: `TypeName` (engine/src/types.rs, not under src/)
is "a canonical, hashable, orderable type name value representing a fully
namespace-qualified native type"; "equality/hash by full path".  It is
embedded as the list of path-segment identifiers. -/
abbrev TyName := List String

/-- Modelled from the spec: a namespace path is "an ordered sequence of
namespace segment names" (outer to inner). -/
abbrev Namespace := List String

/-- Modelled from the spec: `TypeName::from_type_path` (types.rs, not under
src/) computes the canonical name of a path.  The reserved absolute-root
marker segment means "already fully namespace-qualified", so it is not part
of the canonical name and a leading marker is dropped. -/
def from_type_path (segs : List PathSegment) : TyName :=
  match segs.map PathSegment.ident with
  | "root" :: rest => rest
  | l => l

/-- Modelled from the spec: `TypeName::to_cpp_name` (types.rs, not under
src/) renders the canonical name as native source text, i.e. the segments
joined by the native scope separator. -/
def to_cpp_name (tn : TyName) : String :=
  String.intercalate "::" tn

/-- Modelled from the spec: `TypeName::to_type_path` (types.rs, not under
src/) renders a canonical (fully qualified) name back into an absolute path:
the root marker followed by the name's segments, none carrying arguments. -/
def to_type_path (tn : TyName) : List PathSegment :=
  ("root" :: tn).map (fun s => PathSegment.mk s .noArgs)

/-- Resolution target of a typedef (`enum TypedefTarget`, typedef_analyzer.rs;
the variants are fixed by the spec's data model: `SimpleAlias`/`Complex`,
called `NoArguments` and a catch-all in the code's `match`). -/
inductive TypedefTarget where
  | noArguments (tn : TyName)
  | complex
deriving DecidableEq, Repr

/-- Modelled from the spec: `ConvertError` (bridge_converter.rs, not under
src/).  "`ComplexTypedefTarget(name)` is the only recoverable error." -/
inductive ConvertError where
  | complexTypedefTarget (name : String)
deriving DecidableEq, Repr

/-- Outcome of a converter operation: a value, a recoverable error
(`Result::Err`), a fatal panic, or non-termination (out of modelled call
stack).  `fatal` and `diverge` are crash outcomes a Rust `Result` cannot
carry. -/
inductive CResult (α : Type) where
  | ok (val : α)
  | err (e : ConvertError)
  | fatal
  | diverge
deriving DecidableEq, Repr

/-- Map a function over the `ok` value of a `CResult`. -/
def CResult.map {α β : Type} (f : α → β) : CResult α → CResult β
  | .ok a => .ok (f a)
  | .err e => .err e
  | .fatal => .fatal
  | .diverge => .diverge

/-- State of `struct TypeConverter`: the types positively identified so far,
and the typedef table (a finite association map). -/
structure TypeConverter where
  types_found : List TyName
  typedefs : List (TyName × TypedefTarget)

/-- Modelled from the spec: `known_types::is_known_type` (known_types.rs, not
under src/) recognizes a fixed table of built-in/standard types (string
types, smart-pointer types, the borrowed-string-view marker).  A
representative fixed table. -/
def is_known_type (tn : TyName) : Bool :=
  tn = ["std", "unique_ptr"] ∨ tn = ["std", "string"] ∨ tn = ["rust_Str"] ∨ tn = ["str"]

/-- Modelled from the spec: `known_types::known_type_substitute_path`
(known_types.rs, not under src/) maps known library types onto their
binding-layer equivalents; the substituted path carries no arguments (the
substitution "discards any generic-argument list already present on the
substituted path segment").  It depends only on the path's canonical name.
A representative fixed table mirroring `is_known_type`. -/
def known_type_substitute_path (segs : List PathSegment) : Option (List PathSegment) :=
  if from_type_path segs = ["std", "unique_ptr"] then
    some [PathSegment.mk "UniquePtr" .noArgs]
  else if from_type_path segs = ["std", "string"] then
    some [PathSegment.mk "CxxString" .noArgs]
  else
    none

/-- Modelled from the spec: `known_types::should_dereference_in_cpp`
(known_types.rs, not under src/) recognizes the borrowed-string-view marker
type, which "is actually a `&str`". -/
def should_dereference_in_cpp (segs : List PathSegment) : Bool :=
  from_type_path segs = ["rust_Str"]

/-- Source `TypeConverter::resolve_typedef`: follow `NoArguments` (simple-alias)
chains through the typedef table to their end; a `Complex` target is the
recoverable `ComplexTypedefTarget` error.  The source recurses without any
cycle check; the recursion is embedded with explicit fuel and `fuel = 0`
yields `diverge` (the spun-out call stack). -/
def resolve_typedef : Nat → TypeConverter → TyName → CResult (Option TyName)
  | 0, _, _ => .diverge
  | fuel + 1, tc, tn =>
    match List.lookup tn tc.typedefs with
    | none => .ok none
    | some (.noArguments original_tn) =>
      match resolve_typedef fuel tc original_tn with
      | .ok none => .ok (some original_tn)
      | .ok (some further_resolution) => .ok (some further_resolution)
      | .err e => .err e
      | .fatal => .fatal
      | .diverge => .diverge
    | some .complex => .err (.complexTypedefTarget (to_cpp_name tn))

/-- The scan for `last_seg_args` in `convert_type_path`: arguments on a
non-final segment are a fatal invariant violation (`panic!`); otherwise the
final segment's arguments are remembered (when non-empty). -/
def collect_last_seg_args : List PathSegment → CResult (Option PathArguments)
  | [] => .ok none
  | [seg] => .ok (if seg.arguments.is_empty then none else some seg.arguments)
  | seg :: rest =>
    if seg.arguments.is_empty then collect_last_seg_args rest else .fatal

/-- Source statement `typ.path.segments.last_mut().unwrap().arguments = last_seg_args`:
overwrite the final segment's arguments; the `unwrap` on an empty segment
list is fatal. -/
def set_last_args : List PathSegment → PathArguments → CResult (List PathSegment)
  | [], _ => .fatal
  | [seg], args => .ok [PathSegment.mk seg.ident args]
  | seg :: rest, args =>
    match set_last_args rest args with
    | .ok rest' => .ok (seg :: rest')
    | .err e => .err e
    | .fatal => .fatal
    | .diverge => .diverge

/-- Source `TypeConverter::convert_punctuated`, parameterized by the recursive
conversion `recur` (one fuel level below): convert each `Type` generic
argument, pass any other argument through, short-circuiting on failure. -/
def convert_punctuated (recur : RsType → CResult RsType) :
    List GenericArgument → CResult (List GenericArgument)
  | [] => .ok []
  | .type t :: rest =>
    match recur t with
    | .ok t' =>
      match convert_punctuated recur rest with
      | .ok rest' => .ok (.type t' :: rest')
      | .err e => .err e
      | .fatal => .fatal
      | .diverge => .diverge
    | .err e => .err e
    | .fatal => .fatal
    | .diverge => .diverge
  | arg :: rest =>
    match convert_punctuated recur rest with
    | .ok rest' => .ok (arg :: rest')
    | .err e => .err e
    | .fatal => .fatal
    | .diverge => .diverge

/-- The absolute-path branch of `convert_type_path`: rebuild every segment
with the same identifier, recursively converting any angle-bracketed
arguments and leaving other argument kinds untouched. -/
def convert_root_segments (recur : RsType → CResult RsType) :
    List PathSegment → CResult (List PathSegment)
  | [] => .ok []
  | seg :: rest =>
    let argsResult : CResult PathArguments :=
      match seg.arguments with
      | .angleBracketed ab =>
        match convert_punctuated recur ab with
        | .ok ab' => .ok (.angleBracketed ab')
        | .err e => .err e
        | .fatal => .fatal
        | .diverge => .diverge
      | a => .ok a
    match argsResult with
    | .ok args =>
      match convert_root_segments recur rest with
      | .ok rest' => .ok (PathSegment.mk seg.ident args :: rest')
      | .err e => .err e
      | .fatal => .fatal
      | .diverge => .diverge
    | .err e => .err e
    | .fatal => .fatal
    | .diverge => .diverge

/-- The non-absolute branch of `convert_type_path`: a name that is neither
already discovered (`types_found`) nor a recognized built-in is assumed to
live in the current namespace and is qualified with the root marker followed
by the namespace's segments; any other name is left alone. -/
def qualify_segments (tc : TypeConverter) (ns : Namespace)
    (segs : List PathSegment) : List PathSegment :=
  let ty := from_type_path segs
  if ty ∉ tc.types_found ∧ is_known_type ty = false then
    ("root" :: ns).map (fun s => PathSegment.mk s .noArgs) ++ segs
  else
    segs

/-- The tail of `convert_type_path` after the root/qualification branch: the
final segment's arguments are remembered (arguments on a non-final segment
are fatal), the typedef table is consulted on the canonical name, known-type
substitution is applied, and the remembered arguments are written back onto
the final segment. -/
def finish_type_path (fuel : Nat) (tc : TypeConverter)
    (segs1 : List PathSegment) : CResult (List PathSegment) :=
  match collect_last_seg_args segs1 with
  | .ok last_seg_args =>
    match resolve_typedef fuel tc (from_type_path segs1) with
    | .ok r =>
      let segs2 := (r.map to_type_path).getD segs1
      let segs3 := (known_type_substitute_path segs2).getD segs2
      match last_seg_args with
      | none => .ok segs3
      | some args => set_last_args segs3 args
    | .err e => .err e
    | .fatal => .fatal
    | .diverge => .diverge
  | .err e => .err e
  | .fatal => .fatal
  | .diverge => .diverge

/-- Source `TypeConverter::convert_type_path`, parameterized by the recursive type
conversion `recur` used for generic arguments.  Mirrors the source: (1) an
absolute path (leading root marker) keeps its identifiers and converts its
arguments; (2) otherwise an unknown bare name is qualified with the root
marker and the current namespace (`qualify_segments`); then
`finish_type_path` performs the typedef/known-type rewriting.  The
`iter().next().unwrap()` on an empty segment list is fatal. -/
def convert_type_path (recur : RsType → CResult RsType) (fuel : Nat)
    (tc : TypeConverter) (segs : List PathSegment) (ns : Namespace) :
    CResult (List PathSegment) :=
  match segs with
  | [] => .fatal
  | s0 :: _ =>
    if s0.ident = "root" then
      match convert_root_segments recur segs with
      | .ok segs1 => finish_type_path fuel tc segs1
      | .err e => .err e
      | .fatal => .fatal
      | .diverge => .diverge
    else
      finish_type_path fuel tc (qualify_segments tc ns segs)

/-- Source `TypeConverter::convert_ptr_to_reference`, parameterized like
`convert_type_path`: convert the pointee (the source goes through
`convert_boxed_type`, a `Box` wrapper that is the identity here) and wrap it
in a reference carrying the pointer's mutability. -/
def convert_ptr_to_reference (recur : RsType → CResult RsType)
    (mutability : Bool) (elem : RsType) : CResult RsType :=
  match recur elem with
  | .ok elem' => .ok (.reference mutability elem')
  | .err e => .err e
  | .fatal => .fatal
  | .diverge => .diverge

/-- Source `TypeConverter::convert_type` (entered through `convert_boxed_type` /
`convert_type_path` exactly as in the source), by structural recursion on an
explicit fuel modelling the call stack:
* a path is converted by `convert_type_path`, then rewritten to `&str` when
  it is the borrowed-string-view marker;
* a reference converts its referent, preserving mutability;
* a raw pointer becomes a reference via `convert_ptr_to_reference`;
* every other shape passes through unmodified. -/
def convert_type : Nat → TypeConverter → RsType → Namespace → CResult RsType
  | 0, _, _, _ => .diverge
  | fuel + 1, tc, ty, ns =>
    match ty with
    | .path p =>
      match convert_type_path (fun t => convert_type fuel tc t ns) fuel tc p ns with
      | .ok newp =>
        if should_dereference_in_cpp newp then
          .ok (.reference false (.path [PathSegment.mk "str" .noArgs]))
        else
          .ok (.path newp)
      | .err e => .err e
      | .fatal => .fatal
      | .diverge => .diverge
    | .reference m elem =>
      match convert_type fuel tc elem ns with
      | .ok elem' => .ok (.reference m elem')
      | .err e => .err e
      | .fatal => .fatal
      | .diverge => .diverge
    | .ptr m elem =>
      match convert_ptr_to_reference (fun t => convert_type fuel tc t ns) m elem with
      | .ok r => .ok r
      | .err e => .err e
      | .fatal => .fatal
      | .diverge => .diverge
    | .otherShape n => .ok (.otherShape n)

/-! ## Type metadata registry (src/engine/src/type_database.rs) -/

/-- State of `struct TypeDatabase`: the nested-type rename map, the
plain-old-data requests, and the exposure allowlist. -/
structure TypeDatabase where
  nested_types : List (TyName × TyName)
  pod_requests : List TyName
  allowlist : List String

/-- Source `TypeDatabase::new` / `Default::default()`. -/
def TypeDatabase.new : TypeDatabase :=
  ⟨[], [], []⟩

/-- Source `TypeDatabase::get_effective_type`: look up a nested-type rename. -/
def get_effective_type (db : TypeDatabase) (original : TyName) : Option TyName :=
  List.lookup original db.nested_types

/-- Source `TypeDatabase::type_to_cpp`: render a resolved type as native source
text.  A named path renders its (possibly renamed) canonical name, with
angle-bracketed generic arguments rendered recursively and joined by `", "`
(non-type arguments render as the empty string); a reference renders
`const T&` or `T&` by mutability.  Every other shape is a fatal
`panic!("Unsupported type")` / `panic!("Unknown type")`, as is the
`last().unwrap()` on an empty segment list.  The structural recursion is
fuelled like `convert_type`; `none` covers the fatal outcomes. -/
def type_to_cpp : Nat → TypeDatabase → RsType → Option String
  | 0, _, _ => none
  | fuel + 1, db, ty =>
    match ty with
    | .path segs =>
      match segs.getLast? with
      | none => none
      | some lastSeg =>
        let root := from_type_path segs
        let root := (get_effective_type db root).getD root
        let rootStr := to_cpp_name root
        match lastSeg.arguments with
        | .angleBracketed args =>
          match args.mapM (fun x =>
              match x with
              | .type gat => type_to_cpp fuel db gat
              | _ => some "") with
          | some rendered => some (rootStr ++ "<" ++ String.intercalate ", " rendered ++ ">")
          | none => none
        | _ => some rootStr
    | .reference m elem =>
      match type_to_cpp fuel db elem with
      | some inner => some ((if m then "" else "const ") ++ inner ++ "&")
      | none => none
    | _ => none

/-! ## Auxiliary definitions used in the statements of the claims -/

/-- One simple-alias edge of the typedef table: `a`'s typedef entry is the
simple alias `b`. -/
def alias_step (tds : List (TyName × TypedefTarget)) (a b : TyName) : Prop :=
  List.lookup a tds = some (.noArguments b)

/-- The typedef table's simple-alias reference graph has no cycle. -/
def alias_acyclic (tds : List (TyName × TypedefTarget)) : Prop :=
  ∀ a, ¬ Relation.TransGen (alias_step tds) a a

/-- The identifiers of a path type's segments (empty for non-path shapes);
used to state counterexamples without an equality decider for `RsType`. -/
def seg_idents : RsType → List String
  | .path segs => segs.map PathSegment.ident
  | _ => []

/-- The first generic type argument attached to the final segment of a path
type, if any. -/
def first_generic_arg : RsType → Option RsType
  | .path segs =>
    match segs.getLast? with
    | some seg =>
      match seg.arguments with
      | .angleBracketed (.type t :: _) => some t
      | _ => none
    | none => none
  | _ => none

/-- Converter state for the typedef-chain scenario of the spec: `A` and `B`
are simple aliases (`A -> B -> C`), `D` is a complex typedef, and `A`, `D`
are discovered types. -/
def tc_typedefs : TypeConverter :=
  { types_found := [["A"], ["D"]]
    typedefs := [(["A"], .noArguments ["B"]), (["B"], .noArguments ["C"]),
                 (["D"], .complex)] }

/-- Converter state with a cyclic typedef table: `A` aliases `B` and `B`
aliases `A`. -/
def tc_cyclic : TypeConverter :=
  { types_found := []
    typedefs := [(["A"], .noArguments ["B"]), (["B"], .noArguments ["A"])] }

/-- An empty converter state. -/
def tc_empty : TypeConverter :=
  { types_found := [], typedefs := [] }

/-- The error `e` is a `ComplexTypedefTarget` naming a type whose typedef
entry is `Complex` in the converter state `tc`: the only recoverable error
shape the converter can produce. -/
def complex_typedef_err (tc : TypeConverter) (e : ConvertError) : Prop :=
  ∃ tn, e = .complexTypedefTarget (to_cpp_name tn) ∧
    List.lookup tn tc.typedefs = some .complex


/-! ## Helper lemmas -/

theorem dropWhile_append_all {p : Char → Bool} (l1 l2 : List Char)
    (h : l1.all p = true) : (l1 ++ l2).dropWhile p = l2.dropWhile p := by
  induction l1 with
  | nil => simp
  | cons a t ih =>
    simp only [List.all_cons, Bool.and_eq_true] at h
    simp [List.dropWhile_cons, h.1, ih h.2]

theorem takeWhile_append_all {p : Char → Bool} (l1 l2 : List Char)
    (h : l1.all p = true) : (l1 ++ l2).takeWhile p = l1 ++ l2.takeWhile p := by
  induction l1 with
  | nil => simp
  | cons a t ih =>
    simp only [List.all_cons, Bool.and_eq_true] at h
    simp [List.takeWhile_cons, h.1, ih h.2]

theorem split_name_loop_none (orig : List Char) :
    ∀ (rest : List Char) (pos : Nat), rest.all Char.isDigit = true →
      split_name_loop orig rest pos = none := by
  intro rest
  induction rest with
  | nil => intro pos _; rfl
  | cons ch rest' ih =>
    intro pos h
    simp only [List.all_cons, Bool.and_eq_true] at h
    simp [split_name_loop, h.1, ih (pos + 1) h.2]

theorem split_name_loop_found (orig : List Char) :
    ∀ (rest skipped : List Char), orig.reverse = skipped ++ rest →
      skipped.all Char.isDigit = true → rest.all Char.isDigit = false →
      digits_value (spec_trailing_digits orig) < 2 ^ 64 →
      split_name_loop orig rest skipped.length =
        some (spec_stem orig, spec_counter orig) := by
  intro rest
  induction rest with
  | nil => intro skipped _ _ h3 _; simp at h3
  | cons ch rest' ih =>
    intro skipped horig hskip hrest hfits
    cases hd : Char.isDigit ch with
    | true =>
      rw [show split_name_loop orig (ch :: rest') skipped.length =
            split_name_loop orig rest' (skipped.length + 1) by
          simp [split_name_loop, hd]]
      have h1 : orig.reverse = (skipped ++ [ch]) ++ rest' := by rw [horig]; simp
      have h2 : (skipped ++ [ch]).all Char.isDigit = true := by
        simp [List.all_append, hskip, hd]
      have h3 : rest'.all Char.isDigit = false := by
        simp only [List.all_cons, hd, Bool.true_and] at hrest
        exact hrest
      have := ih (skipped ++ [ch]) h1 h2 h3 hfits
      simpa using this
    | false =>
      have horig' : orig = (rest'.reverse ++ [ch]) ++ skipped.reverse := by
        have h0 : orig.reverse.reverse = (skipped ++ ch :: rest').reverse := by rw [horig]
        simpa using h0
      have hlen1 : (rest'.reverse ++ [ch]).length = rest'.length + 1 := by simp
      have hlen : orig.length = rest'.length + 1 + skipped.length := by
        rw [horig']; simp; omega
      have hsplit : orig.length - skipped.length = rest'.length + 1 := by omega
      have htake : orig.take (rest'.length + 1) = rest'.reverse ++ [ch] := by
        rw [horig', ← hlen1, List.take_left]
      have hdrop : orig.drop (rest'.length + 1) = skipped.reverse := by
        rw [horig', ← hlen1, List.drop_left]
      have hstem : spec_stem orig = rest'.reverse ++ [ch] := by
        unfold spec_stem
        rw [horig, dropWhile_append_all _ _ hskip, List.dropWhile_cons]
        simp [hd]
      have htrail : spec_trailing_digits orig = skipped.reverse := by
        unfold spec_trailing_digits
        rw [horig, takeWhile_append_all _ _ hskip, List.takeWhile_cons]
        simp [hd]
      simp only [split_name_loop, hd, Bool.false_eq_true, if_false]
      rw [hsplit, htake, hdrop, ← hstem]
      by_cases hsr : skipped.reverse = []
      · have hc : spec_counter orig = 0 := by
          unfold spec_counter
          rw [htrail, if_pos hsr]
        rw [hc]
        simp [hsr]
      · have hall : (skipped.reverse).all Char.isDigit = true := by
          simpa using hskip
        have hbound : digits_value skipped.reverse < 2 ^ 64 := by
          rw [htrail] at hfits
          exact hfits
        have hp : parse_usize skipped.reverse = some (digits_value skipped.reverse) := by
          unfold parse_usize digits_value
          rw [if_pos ⟨hsr, hall, hbound⟩]
        have hc : spec_counter orig = digits_value skipped.reverse := by
          unfold spec_counter
          rw [htrail, if_neg hsr]
        rw [hc]
        simp [hsr, hp]

theorem split_name_loop_overflow (orig : List Char) :
    ∀ (rest skipped : List Char), orig.reverse = skipped ++ rest →
      skipped.all Char.isDigit = true → rest.all Char.isDigit = false →
      2 ^ 64 ≤ digits_value (spec_trailing_digits orig) →
      split_name_loop orig rest skipped.length = none := by
  intro rest
  induction rest with
  | nil => intro skipped _ _ h3 _; simp at h3
  | cons ch rest' ih =>
    intro skipped horig hskip hrest hover
    cases hd : Char.isDigit ch with
    | true =>
      rw [show split_name_loop orig (ch :: rest') skipped.length =
            split_name_loop orig rest' (skipped.length + 1) by
          simp [split_name_loop, hd]]
      have h1 : orig.reverse = (skipped ++ [ch]) ++ rest' := by rw [horig]; simp
      have h2 : (skipped ++ [ch]).all Char.isDigit = true := by
        simp [List.all_append, hskip, hd]
      have h3 : rest'.all Char.isDigit = false := by
        simp only [List.all_cons, hd, Bool.true_and] at hrest
        exact hrest
      have := ih (skipped ++ [ch]) h1 h2 h3 hover
      simpa using this
    | false =>
      have horig' : orig = (rest'.reverse ++ [ch]) ++ skipped.reverse := by
        have h0 : orig.reverse.reverse = (skipped ++ ch :: rest').reverse := by rw [horig]
        simpa using h0
      have hlen1 : (rest'.reverse ++ [ch]).length = rest'.length + 1 := by simp
      have hlen : orig.length = rest'.length + 1 + skipped.length := by
        rw [horig']; simp; omega
      have hsplit : orig.length - skipped.length = rest'.length + 1 := by omega
      have hdrop : orig.drop (rest'.length + 1) = skipped.reverse := by
        rw [horig', ← hlen1, List.drop_left]
      have htrail : spec_trailing_digits orig = skipped.reverse := by
        unfold spec_trailing_digits
        rw [horig, takeWhile_append_all _ _ hskip, List.takeWhile_cons]
        simp [hd]
      rw [htrail] at hover
      have hsr : skipped.reverse ≠ [] := by
        intro hnil
        rw [hnil] at hover
        exact absurd hover (by decide)
      have hp : parse_usize skipped.reverse = none := by
        unfold parse_usize
        rw [if_neg ?_]
        intro hcon
        exact absurd hcon.2.2 (by unfold digits_value at hover; omega)
      simp only [split_name_loop, hd, Bool.false_eq_true, if_false]
      rw [hsplit, hdrop, if_neg hsr, hp]

/-! ## Claims about the overload tracker -/

/-- C1: per-scope baselining.  From a fresh tracker, methods `do`, `do1`,
`dog`, `dog1` on type `A` get bridge names `do`, `do1`, `dog`, `dog1`
(native names `do`, `do`, `dog`, `dog`); methods `do2`, `do3` on type `B`
continue the shared `do` counter but restart `B`'s zero-based series,
yielding bridge names `do`, `do1` (native `do`); a later `do2` on type `C`
misses the shared expected-next value (now 4) and passes through unchanged;
and the free function `C_do2` passes through unchanged. -/
theorem overload_per_scope_baselining :
    run_lookups OverloadTracker.new
      [(some "A".data, "do".data), (some "A".data, "do1".data),
       (some "A".data, "dog".data), (some "A".data, "dog1".data),
       (some "B".data, "do2".data), (some "B".data, "do3".data),
       (some "C".data, "do2".data), (none, "C_do2".data)] =
    some [⟨"do".data, "do".data⟩, ⟨"do".data, "do1".data⟩,
          ⟨"dog".data, "dog".data⟩, ⟨"dog".data, "dog1".data⟩,
          ⟨"do".data, "do".data⟩, ⟨"do".data, "do1".data⟩,
          ⟨"do2".data, "do2".data⟩, ⟨"C_do2".data, "C_do2".data⟩] := by
  decide

/-- C2: overload-sequence recognition for free functions.  From a fresh
tracker, `job`, `job1`, `job2` are recognized as one sequence (native name
`job`, bridge names `job`, `job1`, `job2`); `job24` (counter 24, expected 3)
passes through unchanged; `fish1` and `fish2` (neither matches expected 0)
pass through unchanged. -/
theorem overload_sequence_recognition :
    run_lookups OverloadTracker.new
      [(none, "job".data), (none, "job1".data), (none, "job2".data),
       (none, "job24".data), (none, "fish1".data), (none, "fish2".data)] =
    some [⟨"job".data, "job".data⟩, ⟨"job".data, "job1".data⟩,
          ⟨"job".data, "job2".data⟩, ⟨"job24".data, "job24".data⟩,
          ⟨"fish1".data, "fish1".data⟩, ⟨"fish2".data, "fish2".data⟩] := by
  decide

/-- C3: frame effect of a mismatching lookup.  Whenever the trailing-digit
counter of the raw identifier differs from the expected-next value for its
stem (0 when the stem was never seen), `next_offset` returns the raw name as
both native and bridge name and returns the tracker state unchanged — so
every later lookup behaves exactly as if this call had never happened. -/
theorem next_offset_mismatch_frame (ot : OverloadTracker)
    (type_name : Option (List Char)) (raw stem : List Char) (counter : Nat)
    (hsplit : split_name raw = some (stem, counter))
    (hmiss : counter ≠ ot.expected_next_by_name stem) :
    next_offset ot type_name raw = some (⟨raw, raw⟩, ot) := by
  simp [next_offset, hsplit, hmiss]

theorem next_offset_mismatch_frame_witness :
    split_name "fish1".data = some ("fish".data, 1) ∧
    (1 : Nat) ≠ OverloadTracker.new.expected_next_by_name "fish".data ∧
    next_offset OverloadTracker.new none "fish1".data =
      some (⟨"fish1".data, "fish1".data⟩, OverloadTracker.new) :=
  ⟨by decide, by decide,
   next_offset_mismatch_frame OverloadTracker.new none "fish1".data "fish".data 1
     (by decide) (by decide)⟩

/-- C4 counterexample: the all-numeric case is *not* the only fatal failure
of the split.  The identifier `x99999999999999999999999` contains a
non-digit, yet splitting it is fatal: its trailing digit run's decimal value
exceeds `usize::MAX`, so the source's `suffix.parse::<usize>().unwrap()`
panics. -/
theorem split_name_overflow_counterexample :
    "x99999999999999999999999".data.all Char.isDigit = false ∧
    2 ^ 64 ≤ digits_value (spec_trailing_digits "x99999999999999999999999".data) ∧
    split_name "x99999999999999999999999".data = none :=
  ⟨by decide, by decide, by decide⟩

/-- C4 (amended): suffix splitting.  An identifier with at least one
non-digit character, whose maximal trailing digit run read as a decimal
number fits in `usize` (is below `2 ^ 64`), splits into the part before that
run and the run's value (0 for an empty run); splitting is fatal exactly when
the identifier consists entirely of digits or the trailing run's value
overflows `usize`.  In particular `split("job") = ("job", 0)`,
`split("job1") = ("job", 1)` and `split("job24") = ("job", 24)`. -/
theorem split_name_correct :
    (∀ s : List Char, s.all Char.isDigit = false →
        digits_value (spec_trailing_digits s) < 2 ^ 64 →
        split_name s = some (spec_stem s, spec_counter s)) ∧
    (∀ s : List Char, split_name s = none ↔
        (s.all Char.isDigit = true ∨
          2 ^ 64 ≤ digits_value (spec_trailing_digits s))) ∧
    split_name "job".data = some ("job".data, 0) ∧
    split_name "job1".data = some ("job".data, 1) ∧
    split_name "job24".data = some ("job".data, 24) := by
  have key : ∀ s : List Char, s.all Char.isDigit = false →
      digits_value (spec_trailing_digits s) < 2 ^ 64 →
      split_name s = some (spec_stem s, spec_counter s) := by
    intro s h hfits
    have h0 : s.reverse.all Char.isDigit = false := by simpa using h
    have := split_name_loop_found s s.reverse [] (by simp) (by simp) h0 hfits
    simpa [split_name] using this
  refine ⟨key, ?_, by decide, by decide, by decide⟩
  intro s
  constructor
  · intro hn
    cases hx : s.all Char.isDigit with
    | true => exact Or.inl rfl
    | false =>
      by_cases hb : digits_value (spec_trailing_digits s) < 2 ^ 64
      · rw [key s hx hb] at hn
        exact Option.noConfusion hn
      · exact Or.inr (by omega)
  · intro h
    rcases h with ha | hover
    · have h0 : s.reverse.all Char.isDigit = true := by simpa using ha
      simpa [split_name] using split_name_loop_none s s.reverse 0 h0
    · cases hx : s.all Char.isDigit with
      | true =>
        have h0 : s.reverse.all Char.isDigit = true := by simpa using hx
        simpa [split_name] using split_name_loop_none s s.reverse 0 h0
      | false =>
        have h0 : s.reverse.all Char.isDigit = false := by simpa using hx
        have := split_name_loop_overflow s s.reverse [] (by simp) (by simp) h0 hover
        simpa [split_name] using this

theorem split_name_correct_witness :
    ("job24".data.all Char.isDigit = false) ∧
    digits_value (spec_trailing_digits "job24".data) < 2 ^ 64 ∧
    split_name "job24".data = some (spec_stem "job24".data, spec_counter "job24".data) :=
  ⟨by decide, by decide, split_name_correct.1 "job24".data (by decide) (by decide)⟩

/-! ## Error propagation lemmas for the converter -/

theorem resolve_typedef_err_characterization (fuel : Nat) :
    ∀ (tc : TypeConverter) (tn : TyName) (e : ConvertError),
      resolve_typedef fuel tc tn = .err e → complex_typedef_err tc e := by
  induction fuel with
  | zero =>
    intro tc tn e h
    exact absurd h (by simp [resolve_typedef])
  | succ fuel ih =>
    intro tc tn e h
    rw [resolve_typedef] at h
    split at h
    · exact CResult.noConfusion h
    · rename_i b _
      split at h
      · exact CResult.noConfusion h
      · exact CResult.noConfusion h
      · rename_i e2 hr2
        cases h
        exact ih tc b _ hr2
      · exact CResult.noConfusion h
      · exact CResult.noConfusion h
    · rename_i hl
      cases h
      exact ⟨tn, rfl, hl⟩

theorem collect_last_seg_args_no_err :
    ∀ (segs : List PathSegment) (e : ConvertError),
      collect_last_seg_args segs ≠ .err e := by
  intro segs
  induction segs with
  | nil => intro e h; exact CResult.noConfusion h
  | cons seg rest ih =>
    intro e h
    cases rest with
    | nil => exact CResult.noConfusion h
    | cons b t =>
      rw [collect_last_seg_args] at h
      · by_cases hs : seg.arguments.is_empty = true
        · rw [if_pos hs] at h; exact ih e h
        · rw [if_neg hs] at h; exact CResult.noConfusion h
      · simp

theorem set_last_args_no_err :
    ∀ (segs : List PathSegment) (args : PathArguments) (e : ConvertError),
      set_last_args segs args ≠ .err e := by
  intro segs
  induction segs with
  | nil => intro args e h; exact CResult.noConfusion h
  | cons seg rest ih =>
    intro args e h
    cases rest with
    | nil => exact CResult.noConfusion h
    | cons b t =>
      rw [set_last_args] at h
      · split at h
        · exact CResult.noConfusion h
        · rename_i e2 hr2
          exact ih args e2 hr2
        · exact CResult.noConfusion h
        · exact CResult.noConfusion h
      · simp

theorem convert_punctuated_err {P : ConvertError → Prop}
    (recur : RsType → CResult RsType)
    (hrec : ∀ t e, recur t = .err e → P e) :
    ∀ (l : List GenericArgument) (e : ConvertError),
      convert_punctuated recur l = .err e → P e := by
  intro l
  induction l with
  | nil => intro e h; exact CResult.noConfusion h
  | cons a rest ih =>
    intro e h
    cases a with
    | type t =>
      rw [convert_punctuated] at h
      split at h
      · split at h
        · exact CResult.noConfusion h
        · rename_i e2 hr2; cases h; exact ih _ hr2
        · exact CResult.noConfusion h
        · exact CResult.noConfusion h
      · rename_i e2 hr2; cases h; exact hrec _ _ hr2
      · exact CResult.noConfusion h
      · exact CResult.noConfusion h
    | otherArg n =>
      simp only [convert_punctuated] at h
      split at h
      · exact CResult.noConfusion h
      · rename_i e2 hr2; cases h; exact ih _ hr2
      · exact CResult.noConfusion h
      · exact CResult.noConfusion h

theorem convert_root_segments_err {P : ConvertError → Prop}
    (recur : RsType → CResult RsType)
    (hrec : ∀ t e, recur t = .err e → P e) :
    ∀ (segs : List PathSegment) (e : ConvertError),
      convert_root_segments recur segs = .err e → P e := by
  intro segs
  induction segs with
  | nil => intro e h; exact CResult.noConfusion h
  | cons seg rest ih =>
    intro e h
    rw [convert_root_segments] at h
    split at h
    · split at h
      · exact CResult.noConfusion h
      · rename_i e2 hr2; cases h; exact ih _ hr2
      · exact CResult.noConfusion h
      · exact CResult.noConfusion h
    · rename_i e2 hr2
      cases h
      -- the arguments conversion failed: it can only fail through recur
      split at hr2
      · split at hr2
        · exact CResult.noConfusion hr2
        · rename_i e3 hr3
          cases hr2
          exact convert_punctuated_err recur hrec _ _ hr3
        · exact CResult.noConfusion hr2
        · exact CResult.noConfusion hr2
      · exact CResult.noConfusion hr2
    · exact CResult.noConfusion h
    · exact CResult.noConfusion h

theorem finish_type_path_err (fuel : Nat) (tc : TypeConverter)
    (segs1 : List PathSegment) (e : ConvertError)
    (h : finish_type_path fuel tc segs1 = .err e) : complex_typedef_err tc e := by
  rw [finish_type_path] at h
  split at h
  · split at h
    · split at h
      · exact CResult.noConfusion h
      · exact absurd h (set_last_args_no_err _ _ e)
    · rename_i e2 hr2
      cases h
      exact resolve_typedef_err_characterization fuel tc _ _ hr2
    · exact CResult.noConfusion h
    · exact CResult.noConfusion h
  · rename_i e2 hr2
    exact absurd hr2 (collect_last_seg_args_no_err _ e2)
  · exact CResult.noConfusion h
  · exact CResult.noConfusion h

theorem convert_type_path_err (recur : RsType → CResult RsType) (fuel : Nat)
    (tc : TypeConverter) (ns : Namespace)
    (hrec : ∀ t e, recur t = .err e → complex_typedef_err tc e) :
    ∀ (segs : List PathSegment) (e : ConvertError),
      convert_type_path recur fuel tc segs ns = .err e →
      complex_typedef_err tc e := by
  intro segs e h
  cases segs with
  | nil => exact CResult.noConfusion h
  | cons s0 rest =>
    rw [convert_type_path] at h
    split at h
    · split at h
      · exact finish_type_path_err fuel tc _ e h
      · rename_i e2 hr2
        cases h
        exact convert_root_segments_err recur hrec _ _ hr2
      · exact CResult.noConfusion h
      · exact CResult.noConfusion h
    · exact finish_type_path_err fuel tc _ e h

theorem convert_type_err_characterization :
    ∀ (fuel : Nat) (tc : TypeConverter) (ty : RsType) (ns : Namespace)
      (e : ConvertError),
      convert_type fuel tc ty ns = .err e → complex_typedef_err tc e := by
  intro fuel
  induction fuel with
  | zero => intro tc ty ns e h; exact absurd h (by simp [convert_type])
  | succ fuel ih =>
    intro tc ty ns e h
    cases ty with
    | path p =>
      rw [convert_type] at h
      split at h
      · split at h
        · exact CResult.noConfusion h
        · exact CResult.noConfusion h
      · rename_i e2 hr2
        cases h
        exact convert_type_path_err _ fuel tc ns
          (fun t e2 he => ih tc t ns e2 he) p _ hr2
      · exact CResult.noConfusion h
      · exact CResult.noConfusion h
    | reference m elem =>
      rw [convert_type] at h
      split at h
      · exact CResult.noConfusion h
      · rename_i e2 hr2
        cases h
        exact ih tc elem ns _ hr2
      · exact CResult.noConfusion h
      · exact CResult.noConfusion h
    | ptr m elem =>
      rw [convert_type] at h
      split at h
      · exact CResult.noConfusion h
      · rename_i e2 hr2
        cases h
        rw [convert_ptr_to_reference] at hr2
        split at hr2
        · exact CResult.noConfusion hr2
        · rename_i e3 hr3
          cases hr2
          exact ih tc elem ns _ hr3
        · exact CResult.noConfusion hr2
        · exact CResult.noConfusion hr2
      · exact CResult.noConfusion h
      · exact CResult.noConfusion h
    | otherShape n =>
      rw [convert_type] at h
      exact CResult.noConfusion h

/-! ## Claims about the type converter: typedefs and pointers -/

/-- C5: typedef chain resolution.  With `A -> B -> C` stored as simple
aliases, converting a usage of `A` substitutes `C` (rendered as the absolute
path `root::C`); converting a usage of the complex typedef `D` returns the
recoverable error `ComplexTypedefTarget("D")`; and every recoverable error
`convert_type` can ever return is a `ComplexTypedefTarget` naming a type
whose typedef entry is `Complex` (it propagates unchanged to the caller). -/
theorem typedef_chain_resolution :
    convert_type 6 tc_typedefs (.path [PathSegment.mk "A" .noArgs]) [] =
      .ok (.path [PathSegment.mk "root" .noArgs, PathSegment.mk "C" .noArgs]) ∧
    convert_type 6 tc_typedefs (.path [PathSegment.mk "D" .noArgs]) [] =
      .err (.complexTypedefTarget "D") ∧
    (∀ (fuel : Nat) (tc : TypeConverter) (ty : RsType) (ns : Namespace)
       (e : ConvertError),
       convert_type fuel tc ty ns = .err e → complex_typedef_err tc e) :=
  ⟨rfl, rfl, convert_type_err_characterization⟩

theorem typedef_chain_resolution_witness :
    convert_type 6 tc_typedefs (.path [PathSegment.mk "D" .noArgs]) [] =
      .err (.complexTypedefTarget "D") ∧
    complex_typedef_err tc_typedefs (.complexTypedefTarget "D") :=
  ⟨rfl,
   typedef_chain_resolution.2.2 6 tc_typedefs
     (.path [PathSegment.mk "D" .noArgs]) [] (.complexTypedefTarget "D") rfl⟩

/-- C8: pointer normalization.  Converting a raw pointer converts the pointee
recursively and wraps the result in a reference with the pointer's
mutability; errors, panics and divergence propagate unchanged.  (The fuel
offset accounts for the modelled call through `convert_ptr_to_reference`.) -/
theorem convert_ptr_normalization (fuel : Nat) (tc : TypeConverter)
    (m : Bool) (elem : RsType) (ns : Namespace) :
    convert_type (fuel + 1) tc (.ptr m elem) ns =
      CResult.map (.reference m) (convert_type fuel tc elem ns) := by
  cases h : convert_type fuel tc elem ns <;>
    simp [convert_type, convert_ptr_to_reference, h, CResult.map]

/-! ## Structural lemmas about path conversion -/

theorem PathSegment.eta (s : PathSegment) :
    PathSegment.mk s.ident s.arguments = s := by
  cases s; rfl

theorem from_type_path_idents (segs segs' : List PathSegment)
    (h : segs.map PathSegment.ident = segs'.map PathSegment.ident) :
    from_type_path segs = from_type_path segs' := by
  unfold from_type_path
  rw [h]

theorem known_type_substitute_path_idents (segs segs' : List PathSegment)
    (h : segs.map PathSegment.ident = segs'.map PathSegment.ident) :
    known_type_substitute_path segs = known_type_substitute_path segs' := by
  unfold known_type_substitute_path
  rw [from_type_path_idents segs segs' h]

theorem convert_root_segments_idents (recur : RsType → CResult RsType) :
    ∀ (segs segs' : List PathSegment),
      convert_root_segments recur segs = .ok segs' →
      segs'.map PathSegment.ident = segs.map PathSegment.ident := by
  intro segs
  induction segs with
  | nil => intro segs' h; cases h; rfl
  | cons seg rest ih =>
    intro segs' h
    rw [convert_root_segments] at h
    split at h
    · split at h
      · rename_i rest' hrest
        cases h
        simp [PathSegment.ident, ih _ hrest]
      · exact CResult.noConfusion h
      · exact CResult.noConfusion h
      · exact CResult.noConfusion h
    · exact CResult.noConfusion h
    · exact CResult.noConfusion h
    · exact CResult.noConfusion h

theorem set_last_args_idents :
    ∀ (segs : List PathSegment) (args : PathArguments) (segs' : List PathSegment),
      set_last_args segs args = .ok segs' →
      segs'.map PathSegment.ident = segs.map PathSegment.ident := by
  intro segs
  induction segs with
  | nil => intro args segs' h; exact CResult.noConfusion h
  | cons seg rest ih =>
    intro args segs' h
    cases rest with
    | nil => cases h; simp [PathSegment.ident]
    | cons b t =>
      rw [set_last_args] at h
      · split at h
        · rename_i rest' hrest
          cases h
          simp [ih args _ hrest]
        · exact CResult.noConfusion h
        · exact CResult.noConfusion h
        · exact CResult.noConfusion h
      · simp

theorem set_last_args_getLast :
    ∀ (segs : List PathSegment) (args : PathArguments) (out : List PathSegment),
      set_last_args segs args = .ok out →
      ∃ last, out.getLast? = some last ∧ last.arguments = args := by
  intro segs
  induction segs with
  | nil => intro args out h; exact CResult.noConfusion h
  | cons seg rest ih =>
    intro args out h
    cases rest with
    | nil =>
      cases h
      exact ⟨PathSegment.mk seg.ident args, rfl, rfl⟩
    | cons b t =>
      rw [set_last_args] at h
      · split at h
        · rename_i rest' hrest
          cases h
          obtain ⟨last, hl, ha⟩ := ih args rest' hrest
          refine ⟨last, ?_, ha⟩
          cases rest' with
          | nil => exact Option.noConfusion hl
          | cons c u => rw [List.getLast?_cons_cons]; exact hl
        · exact CResult.noConfusion h
        · exact CResult.noConfusion h
        · exact CResult.noConfusion h
      · simp

theorem collect_last_seg_args_noArgs :
    ∀ (segs : List PathSegment), (∀ s ∈ segs, s.arguments = .noArgs) →
      collect_last_seg_args segs = .ok none := by
  intro segs
  induction segs with
  | nil => intro _; rfl
  | cons seg rest ih =>
    intro h
    cases rest with
    | nil =>
      have hs : seg.arguments = .noArgs := h seg (by simp)
      simp [collect_last_seg_args, hs, PathArguments.is_empty]
    | cons b t =>
      have hs : seg.arguments = .noArgs := h seg (by simp)
      rw [collect_last_seg_args]
      · rw [hs]
        simp only [PathArguments.is_empty, if_true]
        exact ih (fun s hmem => h s (by simp [hmem]))
      · simp

theorem collect_last_seg_args_append :
    ∀ (init : List PathSegment), (∀ s ∈ init, s.arguments = .noArgs) →
      ∀ (lastSeg : PathSegment), lastSeg.arguments.is_empty = false →
        collect_last_seg_args (init ++ [lastSeg]) = .ok (some lastSeg.arguments) := by
  intro init
  induction init with
  | nil =>
    intro _ lastSeg hl
    simp [collect_last_seg_args, hl]
  | cons seg rest ih =>
    intro h lastSeg hl
    have hs : seg.arguments = .noArgs := h seg (by simp)
    have hne : rest ++ [lastSeg] ≠ [] := by simp
    rw [show (seg :: rest) ++ [lastSeg] = seg :: (rest ++ [lastSeg]) by simp]
    cases hr : rest ++ [lastSeg] with
    | nil => exact absurd hr hne
    | cons b t =>
      rw [collect_last_seg_args]
      · rw [hs]
        simp only [PathArguments.is_empty, if_true]
        rw [← hr]
        exact ih (fun s hmem => h s (by simp [hmem])) lastSeg hl
      · simp

theorem convert_root_segments_noArgs (recur : RsType → CResult RsType) :
    ∀ (segs : List PathSegment), (∀ s ∈ segs, s.arguments = .noArgs) →
      convert_root_segments recur segs = .ok segs := by
  intro segs
  induction segs with
  | nil => intro _; rfl
  | cons seg rest ih =>
    intro h
    have hs : seg.arguments = .noArgs := h seg (by simp)
    rw [convert_root_segments, hs]
    simp only []
    rw [ih (fun s hmem => h s (by simp [hmem]))]
    simp only []
    rw [← hs, PathSegment.eta]

theorem convert_root_segments_append (recur : RsType → CResult RsType) :
    ∀ (init : List PathSegment), (∀ s ∈ init, s.arguments = .noArgs) →
      ∀ (lastSeg : PathSegment) (l : List GenericArgument),
        lastSeg.arguments = .angleBracketed l →
        convert_root_segments recur (init ++ [lastSeg]) =
          CResult.map
            (fun l' => init ++ [PathSegment.mk lastSeg.ident (.angleBracketed l')])
            (convert_punctuated recur l) := by
  intro init
  induction init with
  | nil =>
    intro _ lastSeg l hl
    rw [List.nil_append, convert_root_segments, hl]
    cases hp : convert_punctuated recur l <;>
      simp [convert_root_segments, hp, CResult.map]
  | cons seg rest ih =>
    intro h lastSeg l hl
    have hs : seg.arguments = .noArgs := h seg (by simp)
    rw [List.cons_append, convert_root_segments, hs]
    simp only []
    rw [ih (fun s hmem => h s (by simp [hmem])) lastSeg l hl]
    cases hp : convert_punctuated recur l <;>
      simp [CResult.map, hp, ← hs, PathSegment.eta]

theorem convert_punctuated_elementwise (recur : RsType → CResult RsType) :
    ∀ (l l' : List GenericArgument), convert_punctuated recur l = .ok l' →
      List.Forall₂
        (fun a a' =>
          (∃ t t', a = GenericArgument.type t ∧ a' = GenericArgument.type t' ∧
            recur t = .ok t') ∨
          (a' = a ∧ ∀ t, a ≠ GenericArgument.type t)) l l' := by
  intro l
  induction l with
  | nil => intro l' h; cases h; exact List.Forall₂.nil
  | cons a rest ih =>
    intro l' h
    cases a with
    | type t =>
      rw [convert_punctuated] at h
      split at h
      · rename_i t' ht
        split at h
        · rename_i rest' hrest
          cases h
          exact List.Forall₂.cons (Or.inl ⟨t, t', rfl, rfl, ht⟩) (ih _ hrest)
        · exact CResult.noConfusion h
        · exact CResult.noConfusion h
        · exact CResult.noConfusion h
      · exact CResult.noConfusion h
      · exact CResult.noConfusion h
      · exact CResult.noConfusion h
    | otherArg n =>
      simp only [convert_punctuated] at h
      split at h
      · rename_i rest' hrest
        cases h
        exact List.Forall₂.cons (Or.inr ⟨rfl, fun t ht => GenericArgument.noConfusion ht⟩)
          (ih _ hrest)
      · exact CResult.noConfusion h
      · exact CResult.noConfusion h
      · exact CResult.noConfusion h

theorem finish_type_path_noArgs (fuel : Nat) (tc : TypeConverter)
    (segs1 : List PathSegment)
    (hargs : ∀ s ∈ segs1, s.arguments = .noArgs)
    (hres : resolve_typedef fuel tc (from_type_path segs1) = .ok none)
    (hsub : known_type_substitute_path segs1 = none) :
    finish_type_path fuel tc segs1 = .ok segs1 := by
  rw [finish_type_path, collect_last_seg_args_noArgs segs1 hargs]
  simp only [hres, hsub, Option.map_none', Option.getD_none, Option.getD]

theorem finish_type_path_idents (fuel : Nat) (tc : TypeConverter)
    (segs1 out : List PathSegment)
    (hres : resolve_typedef fuel tc (from_type_path segs1) = .ok none)
    (hsub : known_type_substitute_path segs1 = none)
    (h : finish_type_path fuel tc segs1 = .ok out) :
    out.map PathSegment.ident = segs1.map PathSegment.ident := by
  rw [finish_type_path] at h
  split at h
  · rename_i la hcol
    rw [hres] at h
    simp only [Option.map_none', Option.getD_none, hsub, Option.getD] at h
    split at h
    · cases h; rfl
    · exact set_last_args_idents segs1 _ out h
  · exact CResult.noConfusion h
  · exact CResult.noConfusion h
  · exact CResult.noConfusion h

theorem finish_type_path_last_args (fuel : Nat) (tc : TypeConverter)
    (segs1 : List PathSegment) (args : PathArguments) (out : List PathSegment)
    (hcol : collect_last_seg_args segs1 = .ok (some args))
    (h : finish_type_path fuel tc segs1 = .ok out) :
    ∃ last, out.getLast? = some last ∧ last.arguments = args := by
  rw [finish_type_path] at h
  split at h
  · rename_i la hcol2
    have hla : la = some args := by
      rw [hcol] at hcol2
      cases hcol2
      rfl
    subst hla
    split at h
    · exact set_last_args_getLast _ args out h
    · exact CResult.noConfusion h
    · exact CResult.noConfusion h
    · exact CResult.noConfusion h
  · exact CResult.noConfusion h
  · exact CResult.noConfusion h
  · exact CResult.noConfusion h

theorem from_type_path_not_root (i : String) (a : PathArguments)
    (rest : List PathSegment) (h : i ≠ "root") :
    from_type_path (PathSegment.mk i a :: rest) = i :: rest.map PathSegment.ident := by
  unfold from_type_path
  simp only [List.map_cons, PathSegment.ident]
  split
  · rename_i heq
    exact absurd (by injection heq) h
  · rfl

theorem from_type_path_rootSegs (ns : Namespace) (segs : List PathSegment) :
    from_type_path (("root" :: ns).map (fun s => PathSegment.mk s .noArgs) ++ segs) =
      ns ++ segs.map PathSegment.ident := by
  have hmap : ∀ l : List String,
      (l.map (fun s => PathSegment.mk s PathArguments.noArgs)).map
        PathSegment.ident = l := by
    intro l
    induction l with
    | nil => rfl
    | cons a t iht => simp [PathSegment.ident, iht]
  unfold from_type_path
  rw [List.map_append, hmap ("root" :: ns)]
  rfl

/-- C7: namespace qualification.  (a) Converting an absolute path (leading
root marker) never changes its segment identifiers — in particular no
namespace qualification is prepended — provided the path's canonical name is
not itself a typedef or a substituted known type.  (b) A bare name that is
neither in `types_found` nor a recognized built-in is qualified by prepending
the root marker and the current namespace's segments; since the converter is
a pure function of its state, converting the same name twice in the same
state and namespace yields this same result both times; and (c) re-converting
the qualified output takes branch (a) and reproduces it exactly: no further
qualification is added. -/
theorem convert_path_qualification :
    (∀ (recur : RsType → CResult RsType) (fuel : Nat) (tc : TypeConverter)
       (ns : Namespace) (s0 : PathSegment) (tail out : List PathSegment),
       s0.ident = "root" →
       resolve_typedef fuel tc (from_type_path (s0 :: tail)) = .ok none →
       known_type_substitute_path (s0 :: tail) = none →
       convert_type_path recur fuel tc (s0 :: tail) ns = .ok out →
       out.map PathSegment.ident = (s0 :: tail).map PathSegment.ident) ∧
    (∀ (recur : RsType → CResult RsType) (fuel : Nat) (tc : TypeConverter)
       (ns : Namespace) (name : String),
       name ≠ "root" →
       [name] ∉ tc.types_found →
       is_known_type [name] = false →
       resolve_typedef fuel tc (ns ++ [name]) = .ok none →
       known_type_substitute_path
         (("root" :: ns).map (fun s => PathSegment.mk s .noArgs) ++
           [PathSegment.mk name .noArgs]) = none →
       convert_type_path recur fuel tc [PathSegment.mk name .noArgs] ns =
         .ok (("root" :: ns).map (fun s => PathSegment.mk s .noArgs) ++
           [PathSegment.mk name .noArgs]) ∧
       convert_type_path recur fuel tc
         (("root" :: ns).map (fun s => PathSegment.mk s .noArgs) ++
           [PathSegment.mk name .noArgs]) ns =
         .ok (("root" :: ns).map (fun s => PathSegment.mk s .noArgs) ++
           [PathSegment.mk name .noArgs])) := by
  constructor
  · intro recur fuel tc ns s0 tail out hroot hres hsub h
    rw [convert_type_path, if_pos hroot] at h
    split at h
    · rename_i segs1 hrs
      have hid : segs1.map PathSegment.ident = (s0 :: tail).map PathSegment.ident :=
        convert_root_segments_idents recur _ _ hrs
      have hres1 : resolve_typedef fuel tc (from_type_path segs1) = .ok none := by
        rw [from_type_path_idents segs1 (s0 :: tail) hid]
        exact hres
      have hsub1 : known_type_substitute_path segs1 = none := by
        rw [known_type_substitute_path_idents segs1 (s0 :: tail) hid]
        exact hsub
      rw [finish_type_path_idents fuel tc segs1 out hres1 hsub1 h, hid]
    · exact CResult.noConfusion h
    · exact CResult.noConfusion h
    · exact CResult.noConfusion h
  · intro recur fuel tc ns name hname hmem hkn hres hsub
    have hargs : ∀ s ∈ ("root" :: ns).map (fun s => PathSegment.mk s .noArgs) ++
        [PathSegment.mk name .noArgs], s.arguments = PathArguments.noArgs := by
      intro s hs
      rcases List.mem_append.mp hs with hs | hs
      · obtain ⟨a, _, rfl⟩ := List.mem_map.mp hs
        rfl
      · have : s = PathSegment.mk name .noArgs := by simpa using hs
        subst this
        rfl
    have hftp : from_type_path (("root" :: ns).map (fun s => PathSegment.mk s .noArgs) ++
        [PathSegment.mk name .noArgs]) = ns ++ [name] := by
      rw [from_type_path_rootSegs]
      rfl
    have hres1 : resolve_typedef fuel tc
        (from_type_path (("root" :: ns).map (fun s => PathSegment.mk s .noArgs) ++
          [PathSegment.mk name .noArgs])) = .ok none := by
      rw [hftp]; exact hres
    have hfin := finish_type_path_noArgs fuel tc _ hargs hres1 hsub
    constructor
    · rw [convert_type_path,
        if_neg (show ¬ (PathSegment.mk name .noArgs).ident = "root" by
          simpa [PathSegment.ident] using hname)]
      have hq : qualify_segments tc ns [PathSegment.mk name .noArgs] =
          ("root" :: ns).map (fun s => PathSegment.mk s .noArgs) ++
            [PathSegment.mk name .noArgs] := by
        rw [qualify_segments]
        simp only [from_type_path_not_root name _ [] hname, List.map_nil]
        rw [if_pos ⟨hmem, hkn⟩]
      rw [hq]
      exact hfin
    · have hsplit : ("root" :: ns).map (fun s => PathSegment.mk s .noArgs) ++
          [PathSegment.mk name .noArgs] =
          PathSegment.mk "root" .noArgs ::
            (ns.map (fun s => PathSegment.mk s .noArgs) ++
              [PathSegment.mk name .noArgs]) := by
        simp
      rw [hsplit] at hargs hfin ⊢
      rw [convert_type_path,
        if_pos (show (PathSegment.mk "root" PathArguments.noArgs).ident = "root" from rfl)]
      rw [convert_root_segments_noArgs recur _ hargs]
      exact hfin

theorem convert_type_path_root_match (recur : RsType → CResult RsType)
    (fuel : Nat) (tc : TypeConverter) (ns : Namespace)
    (segs : List PathSegment) (s0 : PathSegment) (rest : List PathSegment)
    (hc : segs = s0 :: rest) (hroot : s0.ident = "root") :
    convert_type_path recur fuel tc segs ns =
      match convert_root_segments recur segs with
      | .ok segs1 => finish_type_path fuel tc segs1
      | .err e => .err e
      | .fatal => .fatal
      | .diverge => .diverge := by
  subst hc
  rw [convert_type_path, if_pos hroot]

/-- C6 (amended): for an absolute path (leading root marker) whose final
segment carries a non-empty angle-bracketed argument list and whose other
segments carry none, a successful conversion recursively converts exactly
those arguments and reattaches the converted list to the final segment of the
output (surviving typedef resolution and known-type substitution). -/
theorem convert_root_path_generic_args
    (recur : RsType → CResult RsType) (fuel : Nat) (tc : TypeConverter)
    (ns : Namespace) (init : List PathSegment) (lastSeg : PathSegment)
    (l : List GenericArgument) (out : List PathSegment)
    (hinit : ∀ s ∈ init, s.arguments = .noArgs)
    (hroot : ((init ++ [lastSeg]).head?).map PathSegment.ident = some "root")
    (hlast : lastSeg.arguments = .angleBracketed l)
    (hl : l ≠ [])
    (h : convert_type_path recur fuel tc (init ++ [lastSeg]) ns = .ok out) :
    ∃ l' last, convert_punctuated recur l = .ok l' ∧
      List.Forall₂
        (fun a a' =>
          (∃ t t', a = GenericArgument.type t ∧ a' = GenericArgument.type t' ∧
            recur t = .ok t') ∨
          (a' = a ∧ ∀ t, a ≠ GenericArgument.type t)) l l' ∧
      out.getLast? = some last ∧ last.arguments = .angleBracketed l' := by
  have hcrs := convert_root_segments_append recur init hinit lastSeg l hlast
  have hmatch : convert_type_path recur fuel tc (init ++ [lastSeg]) ns =
      match convert_root_segments recur (init ++ [lastSeg]) with
      | .ok segs1 => finish_type_path fuel tc segs1
      | .err e => .err e
      | .fatal => .fatal
      | .diverge => .diverge := by
    cases init with
    | nil =>
      have hr : lastSeg.ident = "root" := by simpa using hroot
      exact convert_type_path_root_match recur fuel tc ns _ lastSeg [] (by simp) hr
    | cons i0 itail =>
      have hr : i0.ident = "root" := by simpa using hroot
      exact convert_type_path_root_match recur fuel tc ns _ i0 (itail ++ [lastSeg])
        (by simp) hr
  rw [hmatch, hcrs] at h
  cases hp : convert_punctuated recur l with
  | ok l' =>
    rw [hp] at h
    simp only [CResult.map] at h
    have hfa := convert_punctuated_elementwise recur l l' hp
    have hl' : l' ≠ [] := by
      intro hnil
      subst hnil
      cases hfa
      exact hl rfl
    have hemp : (PathSegment.mk lastSeg.ident (.angleBracketed l')).arguments.is_empty
        = false := by
      simp [PathSegment.arguments, PathArguments.is_empty, hl']
    have hcol := collect_last_seg_args_append init hinit
      (PathSegment.mk lastSeg.ident (.angleBracketed l')) hemp
    obtain ⟨last, hgl, hga⟩ := finish_type_path_last_args fuel tc _ _ out hcol h
    exact ⟨l', last, rfl, hfa, hgl, hga⟩
  | err e => rw [hp] at h; simp [CResult.map] at h
  | fatal => rw [hp] at h; simp [CResult.map] at h
  | diverge => rw [hp] at h; simp [CResult.map] at h

/-- C6 counterexample: the claim fails for a path *without* the leading root
marker.  Converting `Foo<Bar>` (both unknown) in namespace `N` qualifies the
outer path to `root::N::Foo<Bar>` but leaves the generic argument `Bar`
untouched, while recursively converting the argument `Bar` itself yields
`root::N::Bar` — so the argument in the output is not the recursive
conversion of the corresponding input argument. -/
theorem convert_generic_args_counterexample :
    convert_type 6 tc_empty
        (.path [PathSegment.mk "Foo"
          (.angleBracketed [.type (.path [PathSegment.mk "Bar" .noArgs])])]) ["N"] =
      .ok (.path [PathSegment.mk "root" .noArgs, PathSegment.mk "N" .noArgs,
        PathSegment.mk "Foo"
          (.angleBracketed [.type (.path [PathSegment.mk "Bar" .noArgs])])]) ∧
    first_generic_arg
        (.path [PathSegment.mk "root" .noArgs, PathSegment.mk "N" .noArgs,
          PathSegment.mk "Foo"
            (.angleBracketed [.type (.path [PathSegment.mk "Bar" .noArgs])])]) =
      some (.path [PathSegment.mk "Bar" .noArgs]) ∧
    convert_type 6 tc_empty (.path [PathSegment.mk "Bar" .noArgs]) ["N"] =
      .ok (.path [PathSegment.mk "root" .noArgs, PathSegment.mk "N" .noArgs,
        PathSegment.mk "Bar" .noArgs]) ∧
    seg_idents (.path [PathSegment.mk "Bar" .noArgs]) ≠
      seg_idents (.path [PathSegment.mk "root" .noArgs, PathSegment.mk "N" .noArgs,
        PathSegment.mk "Bar" .noArgs]) :=
  ⟨rfl, rfl, rfl, by decide⟩

theorem convert_root_path_generic_args_witness :
    convert_type_path (fun t => convert_type 5 tc_empty t ["N"]) 5 tc_empty
        ([PathSegment.mk "root" .noArgs] ++
          [PathSegment.mk "Foo" (.angleBracketed
            [.type (.path [PathSegment.mk "Bar" .noArgs])])]) ["N"] =
      .ok [PathSegment.mk "root" .noArgs,
        PathSegment.mk "Foo" (.angleBracketed
          [.type (.path [PathSegment.mk "root" .noArgs, PathSegment.mk "N" .noArgs,
            PathSegment.mk "Bar" .noArgs])])] ∧
    (∃ l' last,
      convert_punctuated (fun t => convert_type 5 tc_empty t ["N"])
          [.type (.path [PathSegment.mk "Bar" .noArgs])] = .ok l' ∧
      List.Forall₂
        (fun a a' =>
          (∃ t t', a = GenericArgument.type t ∧ a' = GenericArgument.type t' ∧
            convert_type 5 tc_empty t ["N"] = .ok t') ∨
          (a' = a ∧ ∀ t, a ≠ GenericArgument.type t))
        [.type (.path [PathSegment.mk "Bar" .noArgs])] l' ∧
      [PathSegment.mk "root" .noArgs,
        PathSegment.mk "Foo" (.angleBracketed
          [.type (.path [PathSegment.mk "root" .noArgs, PathSegment.mk "N" .noArgs,
            PathSegment.mk "Bar" .noArgs])])].getLast? = some last ∧
      last.arguments = .angleBracketed l') :=
  ⟨rfl,
   convert_root_path_generic_args (fun t => convert_type 5 tc_empty t ["N"]) 5 tc_empty
     ["N"] [PathSegment.mk "root" .noArgs]
     (PathSegment.mk "Foo" (.angleBracketed
       [.type (.path [PathSegment.mk "Bar" .noArgs])]))
     [.type (.path [PathSegment.mk "Bar" .noArgs])] _
     (by
       intro s hs
       have : s = PathSegment.mk "root" PathArguments.noArgs := by simpa using hs
       subst this
       rfl)
     rfl rfl (by simp) rfl⟩

/-! ## Claims about the type metadata registry renderer -/

/-- C9: native-source rendering.  A named path renders as its canonical name
(after applying any nested-type rename) when the final segment carries no
arguments, and as `Name<Arg1, Arg2>` — each generic argument rendered
recursively, joined by `", "` — when it carries angle-bracketed arguments; a
reference renders `const T&` (immutable) or `T&` (mutable); raw pointers and
every other shape reaching the renderer are fatal.  Concrete instances: a
name with two generic arguments renders `Name<Arg1, Arg2>`, references
render `const Name&` / `Name&`, and a recorded nested-type rename replaces
the canonical name. -/
theorem type_to_cpp_rendering :
    (∀ (fuel : Nat) (db : TypeDatabase) (segs : List PathSegment)
       (lastSeg : PathSegment) (args : List GenericArgument) (rendered : List String),
       segs.getLast? = some lastSeg →
       lastSeg.arguments = .angleBracketed args →
       args.mapM (fun x =>
         match x with
         | GenericArgument.type gat => type_to_cpp fuel db gat
         | _ => some "") = some rendered →
       type_to_cpp (fuel + 1) db (.path segs) =
         some (to_cpp_name
             ((get_effective_type db (from_type_path segs)).getD (from_type_path segs)) ++
           "<" ++ String.intercalate ", " rendered ++ ">")) ∧
    (∀ (fuel : Nat) (db : TypeDatabase) (segs : List PathSegment)
       (lastSeg : PathSegment),
       segs.getLast? = some lastSeg →
       lastSeg.arguments = .noArgs →
       type_to_cpp (fuel + 1) db (.path segs) =
         some (to_cpp_name
           ((get_effective_type db (from_type_path segs)).getD (from_type_path segs)))) ∧
    (∀ (fuel : Nat) (db : TypeDatabase) (m : Bool) (elem : RsType),
       type_to_cpp (fuel + 1) db (.reference m elem) =
         (type_to_cpp fuel db elem).map
           (fun inner => (if m then "" else "const ") ++ inner ++ "&")) ∧
    (∀ (fuel : Nat) (db : TypeDatabase) (m : Bool) (elem : RsType),
       type_to_cpp (fuel + 1) db (.ptr m elem) = none) ∧
    (∀ (fuel : Nat) (db : TypeDatabase) (tag : Nat),
       type_to_cpp (fuel + 1) db (.otherShape tag) = none) ∧
    type_to_cpp 6 TypeDatabase.new
        (.path [PathSegment.mk "Name" (.angleBracketed
          [.type (.path [PathSegment.mk "Arg1" .noArgs]),
           .type (.path [PathSegment.mk "Arg2" .noArgs])])]) = some "Name<Arg1, Arg2>" ∧
    type_to_cpp 6 TypeDatabase.new
        (.reference false (.path [PathSegment.mk "Name" .noArgs])) = some "const Name&" ∧
    type_to_cpp 6 TypeDatabase.new
        (.reference true (.path [PathSegment.mk "Name" .noArgs])) = some "Name&" ∧
    type_to_cpp 6 (TypeDatabase.mk [(["N", "Inner"], ["N_Inner"])] [] [])
        (.path [PathSegment.mk "N" .noArgs, PathSegment.mk "Inner" .noArgs]) =
      some "N_Inner" := by
  refine ⟨?_, ?_, ?_, ?_, ?_, rfl, rfl, rfl, rfl⟩
  · intro fuel db segs lastSeg args rendered hlast hargs hmap
    simp only [type_to_cpp, hlast, hargs, hmap]
  · intro fuel db segs lastSeg hlast hargs
    simp only [type_to_cpp, hlast, hargs]
  · intro fuel db m elem
    cases h : type_to_cpp fuel db elem <;> simp [type_to_cpp, h]
  · intro fuel db m elem
    rfl
  · intro fuel db tag
    rfl

theorem type_to_cpp_rendering_witness :
    ([GenericArgument.type (.path [PathSegment.mk "Arg1" .noArgs]),
      GenericArgument.type (.path [PathSegment.mk "Arg2" .noArgs])].mapM (fun x =>
        match x with
        | GenericArgument.type gat => type_to_cpp 5 TypeDatabase.new gat
        | _ => some "") = some ["Arg1", "Arg2"]) ∧
    type_to_cpp 6 TypeDatabase.new
        (.path [PathSegment.mk "Name" (.angleBracketed
          [.type (.path [PathSegment.mk "Arg1" .noArgs]),
           .type (.path [PathSegment.mk "Arg2" .noArgs])])]) =
      some (to_cpp_name
          ((get_effective_type TypeDatabase.new
            (from_type_path [PathSegment.mk "Name" (.angleBracketed
              [.type (.path [PathSegment.mk "Arg1" .noArgs]),
               .type (.path [PathSegment.mk "Arg2" .noArgs])])])).getD
            (from_type_path [PathSegment.mk "Name" (.angleBracketed
              [.type (.path [PathSegment.mk "Arg1" .noArgs]),
               .type (.path [PathSegment.mk "Arg2" .noArgs])])])) ++
        "<" ++ String.intercalate ", " ["Arg1", "Arg2"] ++ ">") :=
  ⟨rfl,
   type_to_cpp_rendering.1 5 TypeDatabase.new _ _ _ ["Arg1", "Arg2"] rfl rfl rfl⟩

/-! ## Termination analysis of typedef resolution -/

theorem resolve_typedef_mono :
    ∀ (fuel : Nat) (tc : TypeConverter) (tn : TyName),
      resolve_typedef fuel tc tn ≠ .diverge →
      resolve_typedef (fuel + 1) tc tn = resolve_typedef fuel tc tn := by
  intro fuel
  induction fuel with
  | zero => intro tc tn h; exact absurd rfl h
  | succ fuel ih =>
    intro tc tn h
    conv_lhs => rw [resolve_typedef]
    conv_rhs => rw [resolve_typedef]
    cases hl : List.lookup tn tc.typedefs with
    | none => simp only [hl]
    | some tgt =>
      cases tgt with
      | complex => simp only [hl]
      | noArguments b =>
        have hb : resolve_typedef fuel tc b ≠ .diverge := by
          intro hd
          exact h (by simp [resolve_typedef, hl, hd])
        simp only [hl]
        rw [ih tc b hb]

theorem resolve_typedef_stable :
    ∀ (fuel m : Nat) (tc : TypeConverter) (tn : TyName), fuel ≤ m →
      resolve_typedef fuel tc tn ≠ .diverge →
      resolve_typedef m tc tn = resolve_typedef fuel tc tn := by
  intro fuel m tc tn hle hnd
  induction m, hle using Nat.le_induction with
  | base => rfl
  | succ m hle ih =>
    rw [← ih] at hnd ⊢
    exact resolve_typedef_mono m tc tn hnd

theorem resolve_typedef_diverge_chain :
    ∀ (N : Nat) (tc : TypeConverter) (tn : TyName),
      resolve_typedef N tc tn = .diverge →
      ∃ a : Nat → TyName, a 0 = tn ∧
        ∀ i, i < N → alias_step tc.typedefs (a i) (a (i + 1)) := by
  intro N
  induction N with
  | zero =>
    intro tc tn _
    exact ⟨fun _ => tn, rfl, fun i hi => absurd hi (by omega)⟩
  | succ N ih =>
    intro tc tn h
    rw [resolve_typedef] at h
    split at h
    · exact CResult.noConfusion h
    · rename_i b hl
      split at h
      · exact CResult.noConfusion h
      · exact CResult.noConfusion h
      · exact CResult.noConfusion h
      · exact CResult.noConfusion h
      · rename_i hr
        obtain ⟨a, ha0, hsteps⟩ := ih tc b hr
        refine ⟨fun i => match i with | 0 => tn | i + 1 => a i, rfl, ?_⟩
        intro i hi
        cases i with
        | zero =>
          simpa [alias_step, ha0] using hl
        | succ i =>
          exact hsteps i (by omega)
    · exact CResult.noConfusion h

theorem lookup_some_mem {α β : Type} [BEq α] [LawfulBEq α]
    (l : List (α × β)) (a : α) (b : β) (h : List.lookup a l = some b) :
    a ∈ l.map Prod.fst := by
  induction l with
  | nil => exact Option.noConfusion h
  | cons p rest ih =>
    obtain ⟨k, v⟩ := p
    rw [List.lookup] at h
    cases he : a == k with
    | true =>
      simp [List.map_cons, eq_of_beq he]
    | false =>
      simp only [he] at h
      exact List.mem_cons_of_mem _ (ih h)

theorem transGen_chain {tds : List (TyName × TypedefTarget)} (a : Nat → TyName) :
    ∀ (i j : Nat), i < j → (∀ k, k < j → alias_step tds (a k) (a (k + 1))) →
      Relation.TransGen (alias_step tds) (a i) (a j) := by
  intro i j
  induction j with
  | zero => intro hij; omega
  | succ j ih =>
    intro hij hsteps
    rcases Nat.lt_succ_iff_lt_or_eq.mp hij with hlt | heq
    · exact Relation.TransGen.tail
        (ih hlt (fun k hk => hsteps k (Nat.lt_succ_of_lt hk)))
        (hsteps j (Nat.lt_succ_self j))
    · subst heq
      exact Relation.TransGen.single (hsteps i (Nat.lt_succ_self i))

theorem chain_repeat {tds : List (TyName × TypedefTarget)} (a : Nat → TyName)
    (N : Nat) (hsteps : ∀ i, i < N → alias_step tds (a i) (a (i + 1)))
    (hN : tds.length < N) :
    ∃ i j, i < j ∧ j < N ∧ a i = a j := by
  have hmaps : ∀ i ∈ Finset.range N, a i ∈ (tds.map Prod.fst).toFinset := by
    intro i hi
    rw [List.mem_toFinset]
    exact lookup_some_mem tds (a i) _ (hsteps i (Finset.mem_range.mp hi))
  have hcard : (tds.map Prod.fst).toFinset.card < (Finset.range N).card := by
    calc (tds.map Prod.fst).toFinset.card ≤ (tds.map Prod.fst).length :=
          List.toFinset_card_le _
      _ = tds.length := List.length_map _ _
      _ < N := hN
      _ = (Finset.range N).card := (Finset.card_range N).symm
  obtain ⟨i, hi, j, hj, hne, heq⟩ :=
    Finset.exists_ne_map_eq_of_card_lt_of_maps_to hcard hmaps
  rcases Nat.lt_or_ge i j with hlt | hge
  · exact ⟨i, j, hlt, Finset.mem_range.mp hj, heq⟩
  · have hgt : j < i := by
      rcases Nat.lt_or_ge j i with h1 | h2
      · exact h1
      · omega
    exact ⟨j, i, hgt, Finset.mem_range.mp hi, heq.symm⟩

theorem resolve_typedef_acyclic_no_diverge (tc : TypeConverter) (tn : TyName)
    (hac : alias_acyclic tc.typedefs) :
    resolve_typedef (tc.typedefs.length + 1) tc tn ≠ .diverge := by
  intro hd
  obtain ⟨a, ha0, hsteps⟩ :=
    resolve_typedef_diverge_chain (tc.typedefs.length + 1) tc tn hd
  obtain ⟨i, j, hij, hjN, heq⟩ :=
    chain_repeat a (tc.typedefs.length + 1) hsteps (by omega)
  exact hac (a j)
    (heq ▸ transGen_chain a i j hij (fun k hk => hsteps k (by omega)))

theorem resolve_typedef_cyclic_diverges :
    ∀ fuel : Nat, resolve_typedef fuel tc_cyclic ["A"] = .diverge ∧
      resolve_typedef fuel tc_cyclic ["B"] = .diverge := by
  intro fuel
  induction fuel with
  | zero => exact ⟨rfl, rfl⟩
  | succ fuel ih =>
    constructor
    · simp only [resolve_typedef,
        show List.lookup ["A"] tc_cyclic.typedefs =
          some (TypedefTarget.noArguments ["B"]) from rfl,
        ih.2]
    · simp only [resolve_typedef,
        show List.lookup ["B"] tc_cyclic.typedefs =
          some (TypedefTarget.noArguments ["A"]) from rfl,
        ih.1]

theorem convert_punctuated_congr (recur₁ recur₂ : RsType → CResult RsType)
    (H : ∀ t, recur₁ t ≠ .diverge → recur₂ t = recur₁ t) :
    ∀ l, convert_punctuated recur₁ l ≠ .diverge →
      convert_punctuated recur₂ l = convert_punctuated recur₁ l := by
  intro l
  induction l with
  | nil => intro _; rfl
  | cons a rest ih =>
    intro hnd
    cases a with
    | type t =>
      conv_lhs => rw [convert_punctuated]
      conv_rhs => rw [convert_punctuated]
      rw [convert_punctuated] at hnd
      cases h1 : recur₁ t with
      | ok t' =>
        have hrest : convert_punctuated recur₁ rest ≠ .diverge := by
          intro hd
          exact hnd (by simp only [h1, hd])
        simp only [H t (by simp [h1]), h1, ih hrest]
      | err e => simp only [H t (by simp [h1]), h1]
      | fatal => simp only [H t (by simp [h1]), h1]
      | diverge => exact absurd (by simp only [h1]) hnd
    | otherArg n =>
      simp only [convert_punctuated] at hnd ⊢
      have hrest : convert_punctuated recur₁ rest ≠ .diverge := by
        intro hd
        exact hnd (by simp only [hd])
      simp only [ih hrest]

theorem convert_root_segments_congr (recur₁ recur₂ : RsType → CResult RsType)
    (H : ∀ t, recur₁ t ≠ .diverge → recur₂ t = recur₁ t) :
    ∀ segs, convert_root_segments recur₁ segs ≠ .diverge →
      convert_root_segments recur₂ segs = convert_root_segments recur₁ segs := by
  intro segs
  induction segs with
  | nil => intro _; rfl
  | cons seg rest ih =>
    intro hnd
    conv_lhs => rw [convert_root_segments]
    conv_rhs => rw [convert_root_segments]
    rw [convert_root_segments] at hnd
    cases ha : seg.arguments with
    | angleBracketed ab =>
      simp only [ha] at hnd ⊢
      cases hp : convert_punctuated recur₁ ab with
      | ok ab' =>
        have hrest : convert_root_segments recur₁ rest ≠ .diverge := by
          intro hd
          exact hnd (by simp only [hp, hd])
        simp only [convert_punctuated_congr recur₁ recur₂ H ab (by simp [hp]), hp,
          ih hrest]
      | err e =>
        simp only [convert_punctuated_congr recur₁ recur₂ H ab (by simp [hp]), hp]
      | fatal =>
        simp only [convert_punctuated_congr recur₁ recur₂ H ab (by simp [hp]), hp]
      | diverge => exact absurd (by simp only [hp]) hnd
    | noArgs =>
      simp only [ha] at hnd ⊢
      have hrest : convert_root_segments recur₁ rest ≠ .diverge := by
        intro hd
        exact hnd (by simp only [hd])
      simp only [ih hrest]
    | parenthesized =>
      simp only [ha] at hnd ⊢
      have hrest : convert_root_segments recur₁ rest ≠ .diverge := by
        intro hd
        exact hnd (by simp only [hd])
      simp only [ih hrest]

theorem finish_type_path_congr (fuel : Nat) (tc : TypeConverter)
    (segs1 : List PathSegment)
    (hnd : finish_type_path fuel tc segs1 ≠ .diverge) :
    finish_type_path (fuel + 1) tc segs1 = finish_type_path fuel tc segs1 := by
  conv_lhs => rw [finish_type_path]
  conv_rhs => rw [finish_type_path]
  rw [finish_type_path] at hnd
  cases hcol : collect_last_seg_args segs1 with
  | ok la =>
    simp only [hcol] at hnd ⊢
    cases hr : resolve_typedef fuel tc (from_type_path segs1) with
    | ok r =>
      rw [resolve_typedef_mono fuel tc _ (by simp [hr]), hr]
    | err e =>
      rw [resolve_typedef_mono fuel tc _ (by simp [hr]), hr]
    | fatal =>
      rw [resolve_typedef_mono fuel tc _ (by simp [hr]), hr]
    | diverge => exact absurd (by simp only [hr]) hnd
  | err e => simp only [hcol]
  | fatal => simp only [hcol]
  | diverge => simp only [hcol]

theorem convert_type_path_congr (recur₁ recur₂ : RsType → CResult RsType)
    (fuel : Nat) (tc : TypeConverter) (ns : Namespace)
    (H : ∀ t, recur₁ t ≠ .diverge → recur₂ t = recur₁ t) :
    ∀ segs, convert_type_path recur₁ fuel tc segs ns ≠ .diverge →
      convert_type_path recur₂ (fuel + 1) tc segs ns =
        convert_type_path recur₁ fuel tc segs ns := by
  intro segs hnd
  cases segs with
  | nil => rfl
  | cons s0 rest =>
    conv_lhs => rw [convert_type_path]
    conv_rhs => rw [convert_type_path]
    rw [convert_type_path] at hnd
    by_cases hroot : s0.ident = "root"
    · rw [if_pos hroot] at hnd
      rw [if_pos hroot, if_pos hroot]
      cases hcrs : convert_root_segments recur₁ (s0 :: rest) with
      | ok segs1 =>
        have hfin : finish_type_path fuel tc segs1 ≠ .diverge := by
          intro hd
          exact hnd (by simp only [hcrs, hd])
        simp only [convert_root_segments_congr recur₁ recur₂ H (s0 :: rest)
          (by simp [hcrs]), hcrs]
        exact finish_type_path_congr fuel tc segs1 hfin
      | err e =>
        simp only [convert_root_segments_congr recur₁ recur₂ H (s0 :: rest)
          (by simp [hcrs]), hcrs]
      | fatal =>
        simp only [convert_root_segments_congr recur₁ recur₂ H (s0 :: rest)
          (by simp [hcrs]), hcrs]
      | diverge => exact absurd (by simp only [hcrs]) hnd
    · rw [if_neg hroot] at hnd
      rw [if_neg hroot, if_neg hroot]
      exact finish_type_path_congr fuel tc _ hnd

theorem convert_type_mono :
    ∀ (fuel : Nat) (tc : TypeConverter) (ty : RsType) (ns : Namespace),
      convert_type fuel tc ty ns ≠ .diverge →
      convert_type (fuel + 1) tc ty ns = convert_type fuel tc ty ns := by
  intro fuel
  induction fuel with
  | zero => intro tc ty ns h; exact absurd rfl h
  | succ fuel ih =>
    intro tc ty ns h
    cases ty with
    | path p =>
      conv_lhs => rw [convert_type]
      conv_rhs => rw [convert_type]
      rw [convert_type] at h
      cases hc : convert_type_path (fun t => convert_type fuel tc t ns) fuel tc p ns with
      | ok newp =>
        simp only [convert_type_path_congr _ _ fuel tc ns
          (fun t ht => ih tc t ns ht) p (by simp [hc]), hc]
      | err e =>
        simp only [convert_type_path_congr _ _ fuel tc ns
          (fun t ht => ih tc t ns ht) p (by simp [hc]), hc]
      | fatal =>
        simp only [convert_type_path_congr _ _ fuel tc ns
          (fun t ht => ih tc t ns ht) p (by simp [hc]), hc]
      | diverge => exact absurd (by simp only [hc]) h
    | reference m elem =>
      conv_lhs => rw [convert_type]
      conv_rhs => rw [convert_type]
      rw [convert_type] at h
      cases he : convert_type fuel tc elem ns with
      | ok elem' => simp only [ih tc elem ns (by simp [he]), he]
      | err e => simp only [ih tc elem ns (by simp [he]), he]
      | fatal => simp only [ih tc elem ns (by simp [he]), he]
      | diverge => exact absurd (by simp only [he]) h
    | ptr m elem =>
      conv_lhs => rw [convert_type]
      conv_rhs => rw [convert_type]
      rw [convert_type] at h
      rw [convert_ptr_to_reference] at h ⊢
      conv_rhs => rw [convert_ptr_to_reference]
      cases he : convert_type fuel tc elem ns with
      | ok elem' => simp only [ih tc elem ns (by simp [he]), he]
      | err e => simp only [ih tc elem ns (by simp [he]), he]
      | fatal => simp only [ih tc elem ns (by simp [he]), he]
      | diverge =>
        exact absurd (by simp only [convert_ptr_to_reference, he]) h
    | otherShape n => rfl

theorem convert_type_stable :
    ∀ (fuel m : Nat) (tc : TypeConverter) (ty : RsType) (ns : Namespace),
      fuel ≤ m → convert_type fuel tc ty ns ≠ .diverge →
      convert_type m tc ty ns = convert_type fuel tc ty ns := by
  intro fuel m tc ty ns hle hnd
  induction m, hle using Nat.le_induction with
  | base => rfl
  | succ m hle ih =>
    rw [← ih] at hnd ⊢
    exact convert_type_mono m tc ty ns hnd

theorem collect_last_seg_args_no_diverge :
    ∀ (segs : List PathSegment), collect_last_seg_args segs ≠ .diverge := by
  intro segs
  induction segs with
  | nil => intro h; exact CResult.noConfusion h
  | cons seg rest ih =>
    intro h
    cases rest with
    | nil => exact CResult.noConfusion h
    | cons b t =>
      rw [collect_last_seg_args] at h
      · by_cases hs : seg.arguments.is_empty = true
        · rw [if_pos hs] at h; exact ih h
        · rw [if_neg hs] at h; exact CResult.noConfusion h
      · simp

theorem set_last_args_no_diverge :
    ∀ (segs : List PathSegment) (args : PathArguments),
      set_last_args segs args ≠ .diverge := by
  intro segs
  induction segs with
  | nil => intro args h; exact CResult.noConfusion h
  | cons seg rest ih =>
    intro args h
    cases rest with
    | nil => exact CResult.noConfusion h
    | cons b t =>
      rw [set_last_args] at h
      · split at h
        · exact CResult.noConfusion h
        · exact CResult.noConfusion h
        · exact CResult.noConfusion h
        · rename_i hr
          exact ih args hr
      · simp

theorem convert_punctuated_nd (recur : RsType → CResult RsType) :
    ∀ l : List GenericArgument,
      (∀ t : RsType, sizeOf t < sizeOf l → recur t ≠ .diverge) →
      convert_punctuated recur l ≠ .diverge := by
  intro l
  induction l with
  | nil => intro _ h; exact CResult.noConfusion h
  | cons a rest ih =>
    intro hrec h
    cases a with
    | type t =>
      rw [convert_punctuated] at h
      split at h
      · split at h
        · exact CResult.noConfusion h
        · exact CResult.noConfusion h
        · exact CResult.noConfusion h
        · rename_i hr
          exact ih (fun t2 ht2 => hrec t2 (by simp at ht2 ⊢; omega)) hr
      · exact CResult.noConfusion h
      · exact CResult.noConfusion h
      · rename_i hr
        exact hrec t (by simp; omega) hr
    | otherArg n =>
      simp only [convert_punctuated] at h
      split at h
      · exact CResult.noConfusion h
      · exact CResult.noConfusion h
      · exact CResult.noConfusion h
      · rename_i hr
        exact ih (fun t2 ht2 => hrec t2 (by simp at ht2 ⊢; omega)) hr

theorem convert_root_segments_nd (recur : RsType → CResult RsType) :
    ∀ segs : List PathSegment,
      (∀ t : RsType, sizeOf t < sizeOf segs → recur t ≠ .diverge) →
      convert_root_segments recur segs ≠ .diverge := by
  intro segs
  induction segs with
  | nil => intro _ h; exact CResult.noConfusion h
  | cons seg rest ih =>
    intro hrec h
    obtain ⟨i, sargs⟩ := seg
    rw [convert_root_segments] at h
    cases sargs with
    | angleBracketed ab =>
      simp only [PathSegment.arguments] at h
      split at h
      · split at h
        · exact CResult.noConfusion h
        · exact CResult.noConfusion h
        · exact CResult.noConfusion h
        · rename_i hr
          exact ih (fun t2 ht2 => hrec t2 (by simp at ht2 ⊢; omega)) hr
      · exact CResult.noConfusion h
      · exact CResult.noConfusion h
      · rename_i hr
        split at hr
        · exact CResult.noConfusion hr
        · exact CResult.noConfusion hr
        · exact CResult.noConfusion hr
        · rename_i hr2
          refine convert_punctuated_nd recur ab ?_ hr2
          intro t2 ht2
          exact hrec t2 (by simp at ht2 ⊢; omega)
    | noArgs =>
      simp only [PathSegment.arguments] at h
      split at h
      · exact CResult.noConfusion h
      · exact CResult.noConfusion h
      · exact CResult.noConfusion h
      · rename_i hr
        exact ih (fun t2 ht2 => hrec t2 (by simp at ht2 ⊢; omega)) hr
    | parenthesized =>
      simp only [PathSegment.arguments] at h
      split at h
      · exact CResult.noConfusion h
      · exact CResult.noConfusion h
      · exact CResult.noConfusion h
      · rename_i hr
        exact ih (fun t2 ht2 => hrec t2 (by simp at ht2 ⊢; omega)) hr

theorem finish_type_path_nd (fuel : Nat) (tc : TypeConverter)
    (segs1 : List PathSegment)
    (hres : ∀ tn, resolve_typedef fuel tc tn ≠ .diverge) :
    finish_type_path fuel tc segs1 ≠ .diverge := by
  intro h
  rw [finish_type_path] at h
  split at h
  · split at h
    · split at h
      · exact CResult.noConfusion h
      · exact set_last_args_no_diverge _ _ h
    · exact CResult.noConfusion h
    · exact CResult.noConfusion h
    · rename_i hr
      exact hres _ hr
  · exact CResult.noConfusion h
  · exact CResult.noConfusion h
  · rename_i hr
    exact collect_last_seg_args_no_diverge _ hr

theorem convert_type_path_nd (recur : RsType → CResult RsType) (fuel : Nat)
    (tc : TypeConverter) (ns : Namespace) (segs : List PathSegment)
    (hrec : ∀ t : RsType, sizeOf t < sizeOf segs → recur t ≠ .diverge)
    (hres : ∀ tn, resolve_typedef fuel tc tn ≠ .diverge) :
    convert_type_path recur fuel tc segs ns ≠ .diverge := by
  intro h
  cases segs with
  | nil => exact CResult.noConfusion h
  | cons s0 rest =>
    rw [convert_type_path] at h
    by_cases hroot : s0.ident = "root"
    · rw [if_pos hroot] at h
      split at h
      · exact finish_type_path_nd fuel tc _ hres h
      · exact CResult.noConfusion h
      · exact CResult.noConfusion h
      · rename_i hr
        exact convert_root_segments_nd recur (s0 :: rest) hrec hr
    · rw [if_neg hroot] at h
      exact finish_type_path_nd fuel tc _ hres h

theorem RsType.one_le_sizeOf (ty : RsType) : 1 ≤ sizeOf ty := by
  cases ty <;> simp <;> omega

theorem convert_type_nd :
    ∀ (n : Nat) (ty : RsType), sizeOf ty < n →
      ∀ (fuel : Nat) (tc : TypeConverter) (ns : Namespace),
        alias_acyclic tc.typedefs →
        tc.typedefs.length + 1 + sizeOf ty ≤ fuel →
        convert_type fuel tc ty ns ≠ .diverge := by
  intro n
  induction n with
  | zero => intro ty h; omega
  | succ n ih =>
    intro ty hty fuel tc ns hac hfuel
    cases fuel with
    | zero =>
      have := RsType.one_le_sizeOf ty
      omega
    | succ fuel =>
      have hres : ∀ tn, resolve_typedef fuel tc tn ≠ .diverge := by
        intro tn
        have h1 := RsType.one_le_sizeOf ty
        have hL : tc.typedefs.length + 1 ≤ fuel := by omega
        rw [resolve_typedef_stable (tc.typedefs.length + 1) fuel tc tn hL
          (resolve_typedef_acyclic_no_diverge tc tn hac)]
        exact resolve_typedef_acyclic_no_diverge tc tn hac
      intro h
      cases ty with
      | path p =>
        have hsz : sizeOf (RsType.path p) = 1 + sizeOf p := by simp
        rw [convert_type] at h
        split at h
        · split at h
          · exact CResult.noConfusion h
          · exact CResult.noConfusion h
        · exact CResult.noConfusion h
        · exact CResult.noConfusion h
        · rename_i hr
          refine convert_type_path_nd _ fuel tc ns p ?_ hres hr
          intro t ht
          refine ih t (by omega) fuel tc ns hac (by omega)
      | reference m elem =>
        have hsz : sizeOf (RsType.reference m elem) = 1 + sizeOf m + sizeOf elem := by
          simp
        rw [convert_type] at h
        split at h
        · exact CResult.noConfusion h
        · exact CResult.noConfusion h
        · exact CResult.noConfusion h
        · rename_i hr
          refine ih elem (by omega) fuel tc ns hac (by omega) hr
      | ptr m elem =>
        have hsz : sizeOf (RsType.ptr m elem) = 1 + sizeOf m + sizeOf elem := by simp
        rw [convert_type] at h
        split at h
        · exact CResult.noConfusion h
        · exact CResult.noConfusion h
        · exact CResult.noConfusion h
        · rename_i hr
          rw [convert_ptr_to_reference] at hr
          split at hr
          · exact CResult.noConfusion hr
          · exact CResult.noConfusion hr
          · exact CResult.noConfusion hr
          · rename_i hr2
            refine ih elem (by omega) fuel tc ns hac (by omega) hr2
      | otherShape tag =>
        rw [convert_type] at h
        exact CResult.noConfusion h

theorem tc_typedefs_acyclic : alias_acyclic tc_typedefs.typedefs := by
  have hrank : ∀ x y, alias_step tc_typedefs.typedefs x y →
      (if x = ["A"] then 0 else if x = ["B"] then 1 else 2) <
        (if y = ["A"] then 0 else if y = ["B"] then 1 else 2) := by
    intro x y hxy
    unfold alias_step at hxy
    by_cases hA : x = ["A"]
    · subst hA
      rw [show List.lookup ["A"] tc_typedefs.typedefs =
          some (TypedefTarget.noArguments ["B"]) from rfl] at hxy
      have := Option.some.inj hxy
      have hy : y = ["B"] := by
        cases this
        rfl
      subst hy
      decide
    · by_cases hB : x = ["B"]
      · subst hB
        rw [show List.lookup ["B"] tc_typedefs.typedefs =
            some (TypedefTarget.noArguments ["C"]) from rfl] at hxy
        have := Option.some.inj hxy
        have hy : y = ["C"] := by
          cases this
          rfl
        subst hy
        decide
      · exfalso
        by_cases hD : x = ["D"]
        · subst hD
          rw [show List.lookup ["D"] tc_typedefs.typedefs =
              some TypedefTarget.complex from rfl] at hxy
          exact TypedefTarget.noConfusion (Option.some.inj hxy)
        · have h1 : (x == ["A"]) = false := beq_eq_false_iff_ne.mpr hA
          have h2 : (x == ["B"]) = false := beq_eq_false_iff_ne.mpr hB
          have h3 : (x == ["D"]) = false := beq_eq_false_iff_ne.mpr hD
          simp only [tc_typedefs, List.lookup, h1, h2, h3] at hxy
          exact Option.noConfusion hxy
  intro a h
  have hlt : ∀ x y, Relation.TransGen (alias_step tc_typedefs.typedefs) x y →
      (if x = ["A"] then 0 else if x = ["B"] then 1 else 2) <
        (if y = ["A"] then 0 else if y = ["B"] then 1 else 2) := by
    intro x y hxy
    induction hxy with
    | single hs => exact hrank _ _ hs
    | tail h1 hs ih => exact lt_trans ih (hrank _ _ hs)
  exact absurd (hlt a a h) (lt_irrefl _)

/-- C10: termination of typedef resolution.  `resolve_typedef` follows
simple-alias chains with no cycle detection (in the model: fuel counts the
recursion depth, `diverge` marks exhaustion).  For every converter state
whose alias graph is acyclic, resolution — and hence `convert_type` on any
input — stabilizes at a finite depth and does not diverge; on the cyclic
table `A -> B -> A`, resolution of `A` diverges at every depth. -/
theorem resolve_typedef_termination :
    (∀ (tc : TypeConverter) (tn : TyName), alias_acyclic tc.typedefs →
       ∃ N, ∀ m, N ≤ m →
         resolve_typedef m tc tn = resolve_typedef N tc tn ∧
         resolve_typedef N tc tn ≠ .diverge) ∧
    (∀ (tc : TypeConverter) (ty : RsType) (ns : Namespace),
       alias_acyclic tc.typedefs →
       ∃ N, ∀ m, N ≤ m →
         convert_type m tc ty ns = convert_type N tc ty ns ∧
         convert_type N tc ty ns ≠ .diverge) ∧
    (∀ fuel : Nat, resolve_typedef fuel tc_cyclic ["A"] = .diverge) := by
  refine ⟨?_, ?_, fun fuel => (resolve_typedef_cyclic_diverges fuel).1⟩
  · intro tc tn hac
    refine ⟨tc.typedefs.length + 1, fun m hm =>
      ⟨?_, resolve_typedef_acyclic_no_diverge tc tn hac⟩⟩
    exact resolve_typedef_stable _ m tc tn hm
      (resolve_typedef_acyclic_no_diverge tc tn hac)
  · intro tc ty ns hac
    have hnd := convert_type_nd (sizeOf ty + 1) ty (by omega)
      (tc.typedefs.length + 1 + sizeOf ty) tc ns hac (by omega)
    refine ⟨tc.typedefs.length + 1 + sizeOf ty, fun m hm => ⟨?_, hnd⟩⟩
    exact convert_type_stable _ m tc ty ns hm hnd

theorem resolve_typedef_termination_witness :
    alias_acyclic tc_typedefs.typedefs ∧
    (∃ N, ∀ m, N ≤ m →
      resolve_typedef m tc_typedefs ["A"] = resolve_typedef N tc_typedefs ["A"] ∧
      resolve_typedef N tc_typedefs ["A"] ≠ .diverge) ∧
    (∃ N, ∀ m, N ≤ m →
      convert_type m tc_typedefs (.path [PathSegment.mk "A" .noArgs]) [] =
        convert_type N tc_typedefs (.path [PathSegment.mk "A" .noArgs]) [] ∧
      convert_type N tc_typedefs (.path [PathSegment.mk "A" .noArgs]) [] ≠ .diverge) :=
  ⟨tc_typedefs_acyclic,
   resolve_typedef_termination.1 tc_typedefs ["A"] tc_typedefs_acyclic,
   resolve_typedef_termination.2.1 tc_typedefs (.path [PathSegment.mk "A" .noArgs]) []
     tc_typedefs_acyclic⟩

theorem convert_path_qualification_witness :
    resolve_typedef 3 tc_empty (["ns"] ++ ["Foo"]) = .ok none ∧
    is_known_type ["Foo"] = false ∧
    convert_type_path (fun _ => CResult.fatal) 3 tc_empty
        [PathSegment.mk "Foo" .noArgs] ["ns"] =
      .ok (("root" :: ["ns"]).map (fun s => PathSegment.mk s .noArgs) ++
        [PathSegment.mk "Foo" .noArgs]) ∧
    convert_type_path (fun _ => CResult.fatal) 3 tc_empty
        (("root" :: ["ns"]).map (fun s => PathSegment.mk s .noArgs) ++
          [PathSegment.mk "Foo" .noArgs]) ["ns"] =
      .ok (("root" :: ["ns"]).map (fun s => PathSegment.mk s .noArgs) ++
        [PathSegment.mk "Foo" .noArgs]) ∧
    convert_type_path (fun _ => CResult.fatal) 3 tc_empty
        [PathSegment.mk "root" .noArgs, PathSegment.mk "Baz" .noArgs] ["ns"] =
      .ok [PathSegment.mk "root" .noArgs, PathSegment.mk "Baz" .noArgs] ∧
    [PathSegment.mk "root" PathArguments.noArgs,
      PathSegment.mk "Baz" PathArguments.noArgs].map PathSegment.ident =
      [PathSegment.mk "root" PathArguments.noArgs,
        PathSegment.mk "Baz" PathArguments.noArgs].map PathSegment.ident :=
  ⟨rfl, by decide,
   (convert_path_qualification.2 (fun _ => CResult.fatal) 3 tc_empty ["ns"] "Foo"
     (by decide) (by simp [tc_empty]) (by decide) rfl rfl).1,
   (convert_path_qualification.2 (fun _ => CResult.fatal) 3 tc_empty ["ns"] "Foo"
     (by decide) (by simp [tc_empty]) (by decide) rfl rfl).2,
   rfl,
   convert_path_qualification.1 (fun _ => CResult.fatal) 3 tc_empty ["ns"]
     (PathSegment.mk "root" .noArgs) [PathSegment.mk "Baz" .noArgs]
     [PathSegment.mk "root" .noArgs, PathSegment.mk "Baz" .noArgs]
     rfl rfl rfl rfl⟩
